import Mathlib

/-!
A verification development for `scripts/gen_output/help.rs`, the CLI
help-to-markdown generator: the discovery worklist in `main`, the help-text
parsers `parse_sub_commands` and `parse_description`, the renderers
`cmd_markdown` / `cmd_summary`, and the sentinel-delimited merge
`update_root_summary`.

Text is shallowly embedded as `List Char` (the character content of a Rust
`&str`); byte/char indices coincide for the inputs we reason about at the
level of `char` boundaries used by the source (`find`, `split`, `lines`).
-/

set_option maxRecDepth 10000

namespace HelpGen

/-- Text content of a Rust string slice. -/
abbrev Str := List Char

/-- View a Lean string literal as its character list. -/
def str (s : String) : Str := s.data

/-- Unicode whitespace, as recognised by Rust `char::is_whitespace`,
`str::trim`/`trim_end`, and the `regex` crate's `\s` class (all use the
Unicode `White_Space` property). -/
def uniWS (c : Char) : Bool :=
  c = ' ' || c = '\t' || c = '\n' || c = '\x0b' || c = '\x0c' || c = '\r' ||
  c = '\u0085' || c = '\u00a0' || c = '\u1680' ||
  c = '\u2000' || c = '\u2001' || c = '\u2002' || c = '\u2003' ||
  c = '\u2004' || c = '\u2005' || c = '\u2006' || c = '\u2007' ||
  c = '\u2008' || c = '\u2009' || c = '\u200a' ||
  c = '\u2028' || c = '\u2029' || c = '\u202f' || c = '\u205f' || c = '\u3000'

/-- Index of the first occurrence of `pat` as a contiguous substring of `s`
(Rust `str::find` with a string pattern).  `findSub [] s = some 0`, matching
Rust's behaviour for the empty pattern; all patterns used below are
non-empty. -/
def findSub (pat : Str) : Str → Option Nat
  | [] => if pat.isPrefixOf ([] : Str) then some 0 else none
  | c :: s2 =>
    if pat.isPrefixOf (c :: s2) then some 0
    else (findSub pat s2).map (· + 1)

/-- `pat` occurs in `s` starting at index `i`. -/
def occursAt (pat s : Str) (i : Nat) : Prop := pat <+: s.drop i

/-- `pat` occurs somewhere in `s`. -/
def containsSub (pat s : Str) : Prop := ∃ i, occursAt pat s i

/-- Rust `str::lines`: split on `'\n'`, do not produce a final empty line for
a trailing newline, and strip one trailing `'\r'` from each `'\n'`-terminated
line.  A final line that is not terminated by `'\n'` keeps a trailing `'\r'`
(Rust removes `'\r'` only as part of a `"\r\n"` terminator). -/
def linesRust (s : Str) : List Str :=
  let ps := List.splitOn '\n' s
  let term := ps.dropLast.map
    (fun l => if l.getLast? = some '\r' then l.dropLast else l)
  match ps.getLast? with
  | none => term
  | some [] => term
  | some last => term ++ [last]

/-- The `'\n'`-separated segments of `s`, as seen by the `regex` crate's `.`
(which matches every character except `'\n'`).  Unlike `linesRust` this keeps
a final empty segment and does not strip `'\r'`. -/
def rawLines (s : Str) : List Str := List.splitOn '\n' s

/-- Rust `str::trim_end`. -/
def trimEnd (s : Str) : Str := (s.reverse.dropWhile (fun c => uniWS c)).reverse

/-- Rust `str::trim`. -/
def trimWS (s : Str) : Str := trimEnd (s.dropWhile (fun c => uniWS c))

/-- Rust `str.replace("\n\n", "\n")`: a single left-to-right pass replacing
non-overlapping occurrences of two consecutive newlines by one. -/
def collapseNN : Str → Str
  | '\n' :: '\n' :: rest => '\n' :: collapseNN rest
  | c :: rest => c :: collapseNN rest
  | [] => []

/-- The capture of the regex `^  (\S+)` on one line: exactly two leading
spaces followed by a maximal non-empty run of non-whitespace characters. -/
def lineToken : Str → Option Str
  | ' ' :: ' ' :: rest =>
    let tok := rest.takeWhile (fun c => !(uniWS c))
    if tok = [] then none else some tok
  | _ => none

/-- The literal section header scanned for by `parse_sub_commands`. -/
def commandsHeader : Str := str "Commands:"

/-- The line scan `parse_sub_commands` performs on the text of the
`Commands:` section: take lines up to one starting with `Options:` or
`Arguments:`, extract the `^  (\S+)` capture of each, and drop `help`. -/
def scanCommandLines (sec : Str) : List Str :=
  ((((linesRust sec).takeWhile
      (fun l => !((str "Options:").isPrefixOf l) &&
                !((str "Arguments:").isPrefixOf l))).filterMap
      lineToken).filter (fun t => t ≠ str "help"))

/-- `parse_sub_commands` from the source.  Rust
`s.split("Commands:").nth(1)` yields the text strictly between the first
occurrence of `Commands:` and the following occurrence (or the end of input
when there is no second occurrence), and `None` when the header is absent;
the section text is then scanned line by line. -/
def parse_sub_commands (s : Str) : List Str :=
  match findSub commandsHeader s with
  | none => []
  | some i =>
    let r := s.drop (i + commandsHeader.length)
    let sec := match findSub commandsHeader r with
      | none => r
      | some j => r.take j
    scanCommandLines sec

/-- `parse_description` from the source: split at the first occurrence of
`Usage:`; the description is the first line of the trimmed text before it,
the body is everything from `Usage:` on. -/
def parse_description (s : Str) : Str × Str :=
  match findSub (str "Usage:") s with
  | some idx => (((linesRust (trimWS (s.take idx))).headD []), s.drop idx)
  | none => ([], s)

/-- The `Cmd` struct from the source: a binary path together with the
subcommand path.  Equality (and hence `IndexMap` key identity) is on both
fields. -/
structure Cmd where
  cmd : Str
  subcommands : List Str
deriving DecidableEq, Repr

/-- Building a child command: the parent's segments, cloned, with one more
name appended (`cmd.subcommands.iter().cloned().chain(once(subcmd))`). -/
def Cmd.child (c : Cmd) (s : Str) : Cmd := ⟨c.cmd, c.subcommands ++ [s]⟩

/-- `Path::file_name` composed with the UTF-8 check in `command_name`:
the final component of the path, ignoring trailing separators.  Callers
guarantee a valid non-empty component (the Rust code `expect`s it). -/
def fileName (p : Str) : Str :=
  ((p.reverse.dropWhile (fun c => c = '/')).takeWhile (fun c => c ≠ '/')).reverse

/-- `Display for Cmd`: the binary's file name followed by the space-joined
segments. -/
def cmdDisplay (c : Cmd) : Str :=
  fileName c.cmd ++
    (if c.subcommands.isEmpty then [] else ' ' :: List.intercalate (str " ") c.subcommands)

/-- `cmd.to_string().replace(" ", "/")`: the path-safe form of a command. -/
def pathSafe (c : Cmd) : Str :=
  (cmdDisplay c).map (fun ch => if ch = ' ' then '/' else ch)

/-- `Path::join` for the shapes used by the source: a non-empty base that
does not end in a separator, joined with a relative component. -/
def joinPath (a b : Str) : Str := a ++ '/' :: b

/-- `Path::file_stem` of a file name: the whole name when it has no dot or
when its only dot is the leading character, otherwise the portion before the
final dot.  (Rust also special-cases the name `..`, but `fileNameRev` never
produces it: a path ending in `..` has no file name at all.) -/
def fileStem (f : Str) : Str :=
  let ext := f.reverse.takeWhile (fun c => c ≠ '.')
  if ext.length = f.length then f
  else if f.length = ext.length + 1 then f
  else f.take (f.length - ext.length - 1)

/-- `Path::file_name` of a Unix path, computed on the reversed character
list: walk components from the end, skipping empty components and `.`
components (Rust's component iteration drops both); the first remaining
component is the file name unless it is `..` (a `ParentDir` component, no
file name) or nothing remains.  Returns the reversed name together with the
reversed text preceding it.  The fuel is structural; callers pass the
input's length, which bounds the recursion depth. -/
def fileNameRev : Nat → Str → Option (Str × Str)
  | 0, _ => none
  | fuel + 1, r =>
    let comp := r.takeWhile (fun c => c ≠ '/')
    if comp = [] ∨ comp = ['.'] then
      match r.drop comp.length with
      | [] => none
      | _ :: rest => fileNameRev fuel rest
    else if comp = ['.', '.'] then none
    else some (comp, r.drop comp.length)

/-- `Path::with_extension("md")`: when the path has no file name (it ends in
a `..` component, or in only separators and `.` components) Rust's
`set_extension` returns the path unchanged; otherwise the path is truncated
right after the file name's stem and `.md` is appended, which also discards
any separators and `.` components that trailed the file name. -/
def withExtMd (p : Str) : Str :=
  match fileNameRev p.length p.reverse with
  | none => p
  | some (compRev, restRev) =>
      restRev.reverse ++ fileStem compRev.reverse ++ str ".md"

/-- The output path `cmd_markdown` writes to:
`out_dir.join(cmd.to_string().replace(" ", "/")).with_extension("md")`. -/
def cmd_md_path (out_dir : Str) (c : Cmd) : Str :=
  withExtMd (joinPath out_dir (pathSafe c))

/-- `preprocess_help`: the shipped configuration has zero substitution
patterns, so the body is returned unchanged. -/
def preprocess_help (s : Str) : Str := s

/-- `help_markdown`: description, then a fenced block with the literal
invocation and the preprocessed, trimmed body. -/
def help_markdown (c : Cmd) (stdout : Str) : Str :=
  let pr := parse_description stdout
  pr.1 ++ str "\n\n```bash\n$ " ++ cmdDisplay c ++ str " --help\n" ++
    preprocess_help (trimWS pr.2) ++ str "\n```"

/-- The markdown document `cmd_markdown` writes for one command. -/
def cmd_md_content (c : Cmd) (stdout : Str) : Str :=
  str "# " ++ cmdDisplay c ++ str "\n\n" ++ help_markdown c stdout

/-- `cmd_summary`: one indented link line for a command. -/
def cmd_summary (md_root : Option Str) (c : Cmd) (indent : Nat) : Str :=
  let cmd_s := cmdDisplay c
  let cmd_path := pathSafe c
  let full := match md_root with
    | none => cmd_path
    | some root => root ++ '/' :: cmd_path
  List.replicate (indent + c.subcommands.length * 2) ' ' ++
    str "- [`" ++ cmd_s ++ str "`](./" ++ full ++ str ".md)\n"

/-- The static `README` text (braces written as escapes). -/
def README : Str :=
  str "# CLI Reference\n\n<!-- Generated by scripts/gen_output/help.rs -->\n\nAutomatically-generated CLI reference from `--help` output.\n\n\x7b\x7b#include ./SUMMARY.md\x7d\x7d\n"

/-- The sentinel start marker. -/
def SECTION_START : Str := str "<!-- CLI_REFERENCE START -->"

/-- The sentinel end marker. -/
def SECTION_END : Str := str "<!-- CLI_REFERENCE END -->"

/-- A character that may appear in a `$name` group reference of a `regex`
crate replacement string. -/
def nameChar (c : Char) : Bool := c.isAlphanum || c = '_'

/-- Interpolation of a replacement string by `Regex::replace` (the `Replacer`
impl for `&str`): `$$` is a literal dollar; a reference is the longest run of
name characters, either bare or braced with the run followed by `\x7d`; a
reference whose name parses as the number `0` (any non-empty all-zero digit
string, e.g. `$0`, `$00`, `$\x7b000\x7d`) expands to the whole match, every
other reference expands to the empty string (the section regex has no other
group); a dollar not starting a reference is literal. -/
def expandDollarFuel (whole : Str) : Nat → Str → Str
  | 0, s => s
  | f + 1, s =>
    match s with
    | [] => []
    | '$' :: '$' :: rest => '$' :: expandDollarFuel whole f rest
    | '$' :: '\x7b' :: rest =>
      let nm := rest.takeWhile nameChar
      if nm = [] then '$' :: expandDollarFuel whole f ('\x7b' :: rest)
      else if (rest.drop nm.length).head? = some '\x7d' then
        (if nm.all (fun c => c = '0') then whole else []) ++
          expandDollarFuel whole f (rest.drop (nm.length + 1))
      else '$' :: expandDollarFuel whole f ('\x7b' :: rest)
    | '$' :: c :: rest =>
      if nameChar c then
        (if (c :: rest.takeWhile nameChar).all (fun ch => ch = '0') then whole
         else []) ++
          expandDollarFuel whole f (rest.dropWhile nameChar)
      else '$' :: expandDollarFuel whole f (c :: rest)
    | c :: rest => c :: expandDollarFuel whole f rest

/-- Wrapper supplying enough fuel: each step consumes at least one input
character, so the input's length bounds the recursion depth. -/
def expandDollar (whole s : Str) : Str := expandDollarFuel whole s.length s

/-- The index of the last occurrence of `pat` inside `l` (`0` when there is
none; callers establish existence). -/
def lastOccIn (pat l : Str) : Nat :=
  (((List.range (l.length + 1)).filter
      (fun i => pat.isPrefixOf (l.drop i))).getLast?).getD 0

/-- The line-bounded match around the first end-marker occurrence `j1`: back
up from `j1` to the start of its line, take the line (up to the next
newline), and cut it after the last end-marker occurrence in the line. -/
def sectionEndLineAt (s : Str) (j1 : Nat) : Str :=
  let lineStart := j1 - ((s.take j1).reverse.takeWhile (fun c => c ≠ '\n')).length
  let line := (s.drop lineStart).takeWhile (fun c => c ≠ '\n')
  line.take (lastOccIn SECTION_END line + SECTION_END.length)

/-- The text matched by the regex `.*<!-- CLI_REFERENCE END -->` (no dot-all
flag, so `.` stops at `'\n'`): since the marker contains no newline, the
leftmost match runs from the start of the first line containing the end
marker through the end of the last marker occurrence in that line. -/
def sectionEndMatch (s : Str) : Str :=
  ((findSub SECTION_END s).map (sectionEndLineAt s)).getD []

/-- The fatal-error message printed when the sentinel section is absent. -/
def missingMarkersMsg (file : Str) : Str :=
  str "Could not find CLI_REFERENCE section in " ++ file ++
    str ". Please add the following section to the file:\n" ++ SECTION_START ++
    str "\n... CLI Reference goes here ...\n\n" ++ SECTION_END

/-- `update_root_summary`, as a function from the current index-file content
and the fresh summary fragment to the new content (or the fatal error).

The section regex `(?s)\s*START.*?END` matches, leftmost-first, from the
start of the maximal whitespace run preceding the first start marker through
the first end marker that follows that start marker (the lazy `.*?` picks the
earliest end, and no earlier starting position can match: the text before the
run's start is not whitespace, and any occurrence of the start marker before
the first one is contradictory).  `Regex::replace` replaces that first match
with the interpolated replacement string.

`updateOk` is the successful-merge payload, given the index `i0` of the
first start marker and the offset `d` of the first end marker after it. -/
def updateOk (content root_summary : Str) (i0 d : Nat) : Str :=
  let j0 := i0 + SECTION_START.length + d
  let p := i0 - ((content.take i0).reverse.takeWhile (fun c => uniWS c)).length
  let lastLine := sectionEndMatch content
  let rs := collapseNN (trimEnd root_summary)
  let repl := ' ' :: SECTION_START ++ '\n' :: rs ++ '\n' :: lastLine
  let matched := (content.drop p).take (j0 + SECTION_END.length - p)
  content.take p ++ expandDollar matched repl ++
    content.drop (j0 + SECTION_END.length)

def update_root_summary (file content root_summary : Str) : Except Str Str :=
  ((((findSub SECTION_START content).bind (fun i0 =>
      (findSub SECTION_END (content.drop (i0 + SECTION_START.length))).map (fun d =>
        updateOk content root_summary i0 d))).map Except.ok).getD
    (.error (missingMarkersMsg file)))

/-- `get_entry` with the process-invocation collaborator abstracted as
`run`: on success, the subcommands parsed from the captured stdout together
with the stdout; a non-zero exit status or undecodable output surfaces as the
collaborator's error. -/
def get_entry (run : Cmd → Except Str Str) (c : Cmd) : Except Str (List Str × Str) :=
  match run c with
  | .error e => .error e
  | .ok stdout => .ok (parse_sub_commands stdout, stdout)

/-- `IndexMap::insert`: an existing key keeps its position and gets the new
value; a new key is appended. -/
def insertIdx (out : List (Cmd × Str)) (c : Cmd) (v : Str) : List (Cmd × Str) :=
  if (out.map Prod.fst).contains c then
    out.map (fun p => if p.1 = c then (c, v) else p)
  else out ++ [(c, v)]

/-- The worklist loop of `main`, with explicit fuel (the Rust loop has no
bound; `none` means the fuel ran out before the stack drained).  The Rust
code seeds the `Vec` with the commands reversed and pops from the back, and
pushes each command's children reversed before popping the back again; with
the stack's top written first this is: pop the head, then prepend the
children in listed order. -/
def discoverLoop (run : Cmd → Except Str Str) :
    Nat → List Cmd → List (Cmd × Str) → Option (Except Str (List (Cmd × Str)))
  | _, [], out => some (.ok out)
  | 0, _ :: _, _ => none
  | fuel + 1, c :: rest, out =>
    match get_entry run c with
    | .error e => some (.error e)
    | .ok (subs, stdout) =>
      discoverLoop run fuel (subs.map c.child ++ rest) (insertIdx out c stdout)

/-- The seed commands built by `Cmd::new`: each given binary path with an
empty segment list. -/
def seedCmds (paths : List Str) : List Cmd := paths.map (fun p => ⟨p, []⟩)

/-- The full discovery phase of `main`. -/
def discover (run : Cmd → Except Str Str) (fuel : Nat) (paths : List Str) :
    Option (Except Str (List (Cmd × Str))) :=
  discoverLoop run fuel (seedCmds paths) []

/-- The configuration surface of `main` that the modelled behaviour depends
on, with the filesystem inputs (`root SUMMARY.md` content) and the external
`pathdiff` collaborator's answer supplied as data. -/
structure Args where
  root_dir : Str
  root_indentation : Nat
  out_dir : Str
  readme : Bool
  root_summary : Bool
  commands : List Str
  root_summary_content : Str
  root_path : Option Str

/-- The rendering pass of `main` over a completed Discovered Mapping: the
ordered list of (path, content) writes.  A failing sentinel merge surfaces as
the fatal error (`process::exit(1)`); the per-command files the real program
had already written before that exit are not modelled as outputs of a failed
run. -/
def renderOutputs (a : Args) (out : List (Cmd × Str)) : Except Str (List (Str × Str)) :=
  let mdFiles := out.map (fun p => (cmd_md_path a.out_dir p.1, cmd_md_content p.1 p.2))
  let summary := ((out.map (fun p => cmd_summary none p.1 0)).flatten) ++ str "\n"
  let base := mdFiles ++ [(joinPath a.out_dir (str "SUMMARY.md"), summary)]
  let base2 := if a.readme then base ++ [(joinPath a.out_dir (str "README.md"), README)] else base
  if a.root_summary then
    let rootSummary := (out.map (fun p => cmd_summary a.root_path p.1 a.root_indentation)).flatten
    match update_root_summary (joinPath a.root_dir (str "SUMMARY.md"))
        a.root_summary_content rootSummary with
    | .error e => .error e
    | .ok n => .ok (base2 ++ [(joinPath a.root_dir (str "SUMMARY.md"), n)])
  else .ok base2

/-- `main`: drain the discovery worklist, then render.  Any discovery error
aborts before rendering starts (`get_entry(&cmd)?`). -/
def mainModel (run : Cmd → Except Str Str) (fuel : Nat) (a : Args) :
    Option (Except Str (List (Str × Str))) :=
  match discover run fuel a.commands with
  | none => none
  | some (.error e) => some (.error e)
  | some (.ok out) => some (renderOutputs a out)

/-- The children a command gets on the worklist, for a pure (deterministic,
always-succeeding) help-output function: the parsed subcommand names, each
appended to the parent's segments. -/
def children (help : Cmd → Str) (c : Cmd) : List Cmd :=
  (parse_sub_commands (help c)).map c.child

/-- The sequence of commands popped by `main`'s worklist loop, for a pure
help-output function (fuelled like `discoverLoop`). -/
def travLoop (help : Cmd → Str) : Nat → List Cmd → Option (List Cmd)
  | _, [] => some []
  | 0, _ :: _ => none
  | fuel + 1, c :: rest =>
    (travLoop help fuel (children help c ++ rest)).map (fun t => c :: t)

/-- First-occurrence deduplication of a command list: exactly the key order
an `IndexMap` ends up with after inserting the list in order. -/
def dedupF : List Cmd → List Cmd
  | [] => []
  | c :: l => c :: dedupF (l.filter (fun x => x ≠ c))
termination_by l => l.length
decreasing_by
  have h := List.length_filter_le (fun x => x ≠ c) l
  simp only [List.length_cons]; omega

/-- `PreForest help roots tr`: `tr` is the pre-order depth-first traversal of
the forest with the given roots, where each node's children are given by
`children help`: the traversal of a non-empty forest is its first root, then
the traversal of that root's children, then the traversal of the remaining
roots. -/
inductive PreForest (help : Cmd → Str) : List Cmd → List Cmd → Prop
  | nil : PreForest help [] []
  | cons {c : Cmd} {cs t u : List Cmd} :
      PreForest help (children help c) t → PreForest help cs u →
      PreForest help (c :: cs) (c :: (t ++ u))

/-- `PreForestD help roots tr`: pre-order depth-first traversal as in
`PreForest`, but with first-occurrence-deduplicated children lists — the
shape the Discovered Mapping's key order takes. -/
inductive PreForestD (help : Cmd → Str) : List Cmd → List Cmd → Prop
  | nil : PreForestD help [] []
  | cons {c : Cmd} {cs t u : List Cmd} :
      PreForestD help (dedupF (children help c)) t → PreForestD help cs u →
      PreForestD help (c :: cs) (c :: (t ++ u))

/-- A command reachable from the roots by recursively following subcommand
listings. -/
inductive Reach (help : Cmd → Str) (roots : List Cmd) : Cmd → Prop
  | root {c : Cmd} : c ∈ roots → Reach help roots c
  | step {c x : Cmd} : Reach help roots c → x ∈ children help c → Reach help roots x

/-- All commands in the list sit at the same depth (segment count) — true of
the seed list and of every sibling list. -/
def SameDepth (l : List Cmd) : Prop :=
  ∀ x ∈ l, ∀ y ∈ l, x.subcommands.length = y.subcommands.length

/-- Modelled from claim C2's words: scan all the lines following the first
occurrence of `Commands:` until a line begins with `Options:` or
`Arguments:` or the input ends (no stop at a second `Commands:`). -/
def claimSubCommands (s : Str) : List Str :=
  match findSub commandsHeader s with
  | none => []
  | some i => scanCommandLines (s.drop (i + commandsHeader.length))

/-- Modelled from claim C10's words: when the final path component contains a
dot, replace the text after the final dot with `md`; append `.md` only when
the final component contains no dot. -/
def claimMdPath (out_dir : Str) (c : Cmd) : Str :=
  let p := joinPath out_dir (pathSafe c)
  let file := (p.reverse.takeWhile (fun ch => ch ≠ '/')).reverse
  let dir := p.take (p.length - file.length)
  let ext := file.reverse.takeWhile (fun ch => ch ≠ '.')
  if ext.length = file.length then dir ++ file ++ str ".md"
  else dir ++ file.take (file.length - ext.length) ++ str "md"

/-- Example help-output function: the worked scenario of the spec (`app`
lists `db`, `app db` lists `stats`, everything else is a leaf). -/
def exHelp (c : Cmd) : Str :=
  if c.subcommands = [] then
    str "App help\n\nUsage: app [OPTIONS]\n\nCommands:\n  db    Manage the database\n  help  Print help\n\nOptions:\n  -h, --help  Print help\n"
  else if c.subcommands = [str "db"] then
    str "Usage: app db\n\nCommands:\n  stats  Show stats\n  help   Print help\n"
  else str "Usage: leaf\n"

/-- The example collaborator that always succeeds with `exHelp`. -/
def exRun (c : Cmd) : Except Str Str := .ok (exHelp c)

/-- An example collaborator whose top-level invocation fails. -/
def exRunFail (c : Cmd) : Except Str Str :=
  if c.subcommands.isEmpty then .error (str "boom") else .ok (exHelp c)

/-- An index-file content in which both sentinel marker lines are present:
an arbitrary prefix `P`, a whitespace run `W`, the start marker on its own
line, arbitrary section text `mid`, the end marker on its own line, and an
arbitrary suffix `R`. -/
def wfContent (P W mid R : Str) : Str :=
  P ++ W ++ SECTION_START ++ '\n' :: mid ++ '\n' :: SECTION_END ++ '\n' :: R

/-- The region `update_root_summary` replaces in a well-formed content. -/
def wfMatched (W mid : Str) : Str :=
  W ++ SECTION_START ++ '\n' :: mid ++ '\n' :: SECTION_END

/-- The replacement string `update_root_summary` builds for a well-formed
content (whose matched end-marker line is exactly the end marker). -/
def wfRepl (F : Str) : Str :=
  ' ' :: SECTION_START ++ '\n' :: collapseNN (trimEnd F) ++ '\n' :: SECTION_END

/-- An example help-output function whose top-level help text lists the same
subcommand name on two lines. -/
def exHelpDup (c : Cmd) : Str :=
  if c.subcommands.isEmpty then str "Commands:\n  foo a\n  foo b\n" else str "leaf"

/-- An example collaborator for a single leaf command. -/
def exRunLeaf : Cmd → Except Str Str := fun _ => .ok (str "nothing")

/-- The Discovered Mapping produced by running discovery on `exHelp` from
seed `app`. -/
def exOut : List (Cmd × Str) :=
  [(⟨str "app", []⟩, exHelp ⟨str "app", []⟩),
   (⟨str "app", [str "db"]⟩, exHelp ⟨str "app", [str "db"]⟩),
   (⟨str "app", [str "db", str "stats"]⟩,
     exHelp ⟨str "app", [str "db", str "stats"]⟩)]

/-- An example root `SUMMARY.md` content with a well-formed sentinel
section. -/
def exRootContent : Str :=
  str "# Summary\n\n<!-- CLI_REFERENCE START -->\nold\n<!-- CLI_REFERENCE END -->\n\n# Tail"

/-- An example configuration. -/
def exArgs : Args :=
  ⟨str ".", 2, str "out", true, true, [str "app"], exRootContent, some (str "out")⟩

/-- A summary fragment that contains the end marker. -/
def exC3frag : Str := str "x <!-- CLI_REFERENCE END --> y"

/-- The file content produced by merging `exC3frag` into `exRootContent`. -/
def exC3N1 : Str :=
  str "# Summary <!-- CLI_REFERENCE START -->\nx <!-- CLI_REFERENCE END --> y\n<!-- CLI_REFERENCE END -->\n\n# Tail"

/-- The file content produced by merging `exC3frag` a second time. -/
def exC3N2 : Str :=
  str "# Summary <!-- CLI_REFERENCE START -->\nx <!-- CLI_REFERENCE END --> y\nx <!-- CLI_REFERENCE END --> y\n<!-- CLI_REFERENCE END -->\n\n# Tail"

/-- An index-file content whose start marker is preceded by two newlines. -/
def exC5 : Str :=
  str "A\n\n<!-- CLI_REFERENCE START -->x<!-- CLI_REFERENCE END -->B"

/-- The result of merging the fragment `frag` into `exC5`. -/
def exC5N : Str :=
  str "A <!-- CLI_REFERENCE START -->\nfrag\n<!-- CLI_REFERENCE START -->x<!-- CLI_REFERENCE END -->B"

/-! ### Foundational lemmas about substring search -/

theorem occursAt_iff_decomp {pat s : Str} {i : Nat} (hp : pat ≠ []) :
    occursAt pat s i ↔ ∃ a b, s = a ++ pat ++ b ∧ a.length = i := by
  constructor
  · intro h
    obtain ⟨b, hb⟩ := h
    have hi : i ≤ s.length := by
      by_contra hlt
      push_neg at hlt
      rw [List.drop_eq_nil_of_le (Nat.le_of_lt hlt)] at hb
      exact hp (List.append_eq_nil.mp hb).1
    refine ⟨s.take i, b, ?_, List.length_take_of_le hi⟩
    conv_lhs => rw [← List.take_append_drop i s]
    rw [List.append_assoc, hb]
  · rintro ⟨a, b, rfl, rfl⟩
    refine ⟨b, ?_⟩
    rw [List.append_assoc, List.drop_append_of_le_length (Nat.le_refl _)]
    simp

theorem decomp_occursAt {pat a b : Str} : occursAt pat (a ++ pat ++ b) a.length := by
  refine ⟨b, ?_⟩
  rw [List.append_assoc, List.drop_append_of_le_length (Nat.le_refl _)]
  simp

theorem findSub_some_occursAt {pat s : Str} {i : Nat}
    (h : findSub pat s = some i) : occursAt pat s i := by
  induction s generalizing i with
  | nil =>
    unfold findSub at h
    split at h
    · rename_i hp
      cases h
      exact (List.isPrefixOf_iff_prefix.mp hp).trans (by simp)
    · cases h
  | cons c s2 ih =>
    unfold findSub at h
    split at h
    · rename_i hp
      cases h
      exact List.isPrefixOf_iff_prefix.mp hp
    · simp only [Option.map_eq_some'] at h
      obtain ⟨j, hj, rfl⟩ := h
      have := ih hj
      unfold occursAt at this ⊢
      simpa using this

theorem findSub_some_min {pat s : Str} {i : Nat}
    (h : findSub pat s = some i) : ∀ j, occursAt pat s j → i ≤ j := by
  induction s generalizing i with
  | nil =>
    intro j hj
    unfold findSub at h
    split at h
    · cases h; exact Nat.zero_le _
    · cases h
  | cons c s2 ih =>
    intro j hj
    unfold findSub at h
    split at h
    · cases h; exact Nat.zero_le _
    · rename_i hp
      simp only [Option.map_eq_some'] at h
      obtain ⟨k, hk, rfl⟩ := h
      cases j with
      | zero =>
        exfalso
        exact hp (List.isPrefixOf_iff_prefix.mpr (by simpa [occursAt] using hj))
      | succ j2 =>
        have : occursAt pat s2 j2 := by
          unfold occursAt at hj ⊢
          simpa using hj
        exact Nat.succ_le_succ (ih hk j2 this)

theorem findSub_none_iff {pat s : Str} :
    findSub pat s = none ↔ ∀ j, ¬ occursAt pat s j := by
  constructor
  · intro h j hj
    induction s generalizing j with
    | nil =>
      unfold findSub at h
      split at h
      · cases h
      · rename_i hp
        have hpe : pat = [] := by
          unfold occursAt at hj
          simpa using List.prefix_nil.mp (by simpa using hj)
        exact hp (List.isPrefixOf_iff_prefix.mpr (by simp [hpe]))
    | cons c s2 ih =>
      unfold findSub at h
      split at h
      · cases h
      · rename_i hp
        simp only [Option.map_eq_none'] at h
        cases j with
        | zero => exact hp (List.isPrefixOf_iff_prefix.mpr (by simpa [occursAt] using hj))
        | succ j2 =>
          refine ih h j2 ?_
          unfold occursAt at hj ⊢
          simpa using hj
  · intro h
    cases hf : findSub pat s with
    | none => rfl
    | some i => exact absurd (findSub_some_occursAt hf) (h i)

theorem findSub_eq_some_of_first {pat s : Str} {i : Nat}
    (hocc : occursAt pat s i) (hmin : ∀ j, occursAt pat s j → i ≤ j) :
    findSub pat s = some i := by
  cases hf : findSub pat s with
  | none => exact absurd hocc (findSub_none_iff.mp hf i)
  | some k =>
    have h1 := findSub_some_min hf i hocc
    have h2 := hmin k (findSub_some_occursAt hf)
    have : k = i := Nat.le_antisymm h1 h2
    rw [this]

theorem not_containsSub_iff {pat s : Str} :
    ¬ containsSub pat s ↔ ∀ j, ¬ occursAt pat s j := by
  unfold containsSub
  push_neg
  rfl

/-! ### C2: subcommand extraction -/

theorem commandsHeader_ne_nil : commandsHeader ≠ [] := by decide

/-- Claim C2 states that after the first `Commands:` the scan continues until
a line begins with `Options:` or `Arguments:` or the input ends.  It is false
at a help text with a second `Commands:` occurrence: Rust
`split("Commands:").nth(1)` ends the scanned section at the second
occurrence, so `b` is not extracted even though no `Options:`/`Arguments:`
line precedes it. -/
theorem C2_counterexample :
    parse_sub_commands (str "Commands:\n  a\nCommands:\n  b\n") = [str "a"] ∧
    claimSubCommands (str "Commands:\n  a\nCommands:\n  b\n") = [str "a", str "b"] ∧
    parse_sub_commands (str "Commands:\n  a\nCommands:\n  b\n") ≠
      claimSubCommands (str "Commands:\n  a\nCommands:\n  b\n") := by
  refine ⟨by decide, by decide, by decide⟩

/-- C2 (amended): if `Commands:` is absent, subcommand extraction returns the
empty list; otherwise it scans the lines of the text between the first
occurrence of `Commands:` and the next occurrence of `Commands:` (or the end
of input when there is none), stopping early at a line beginning with
`Options:` or `Arguments:`, and returns, in line order, the first token of
every scanned line consisting of exactly two leading spaces followed by a
non-space token, excluding the name `help`. -/
theorem C2_amended (s : Str) :
    ((¬ containsSub commandsHeader s) → parse_sub_commands s = []) ∧
    (∀ a b, s = a ++ commandsHeader ++ b →
      (∀ j, occursAt commandsHeader s j → a.length ≤ j) →
      ((¬ containsSub commandsHeader b) → parse_sub_commands s = scanCommandLines b) ∧
      (∀ a2 b2, b = a2 ++ commandsHeader ++ b2 →
        (∀ j, occursAt commandsHeader b j → a2.length ≤ j) →
        parse_sub_commands s = scanCommandLines a2)) := by
  constructor
  · intro h
    have hf : findSub commandsHeader s = none :=
      findSub_none_iff.mpr (not_containsSub_iff.mp h)
    unfold parse_sub_commands
    rw [hf]
  · rintro a b rfl hmin
    have hocc : occursAt commandsHeader (a ++ commandsHeader ++ b) a.length :=
      decomp_occursAt
    have hf : findSub commandsHeader (a ++ commandsHeader ++ b) = some a.length :=
      findSub_eq_some_of_first hocc hmin
    have hdrop : (a ++ commandsHeader ++ b).drop (a.length + commandsHeader.length) = b := by
      rw [← List.length_append a commandsHeader]
      exact List.drop_left (a ++ commandsHeader) b
    constructor
    · intro hb
      have hfb : findSub commandsHeader b = none :=
        findSub_none_iff.mpr (not_containsSub_iff.mp hb)
      unfold parse_sub_commands
      rw [hf]
      simp only [hdrop, hfb]
    · rintro a2 b2 rfl hmin2
      have hocc2 : occursAt commandsHeader (a2 ++ commandsHeader ++ b2) a2.length :=
        decomp_occursAt
      have hfb : findSub commandsHeader (a2 ++ commandsHeader ++ b2) = some a2.length :=
        findSub_eq_some_of_first hocc2 hmin2
      have htake : (a2 ++ commandsHeader ++ b2).take a2.length = a2 := by
        rw [List.append_assoc]
        exact List.take_left a2 (commandsHeader ++ b2)
      unfold parse_sub_commands
      rw [hf]
      simp only [hdrop, hfb, htake]

/-- Witness for `C2_amended` at the counterexample input. -/
theorem C2_amended_witness :
    parse_sub_commands (str "Commands:\n  a\nCommands:\n  b\n") =
      scanCommandLines (str "\n  a\n") := by
  have h := (C2_amended (str "Commands:\n  a\nCommands:\n  b\n")).2
    [] (str "\n  a\nCommands:\n  b\n") (by decide)
    (fun j _ => Nat.zero_le j)
  have h2 := (h.2 (str "\n  a\n") (str "\n  b\n") (by decide)
    (findSub_some_min (by decide)))
  simpa using h2

/-! ### C7: description/body split -/

/-- C7: if `Usage:` occurs in the help text, the description is the first
line of the text preceding its first occurrence after trimming surrounding
whitespace (empty if that region is blank) and the body is everything from
`Usage:` onward; if `Usage:` does not occur, the description is empty and the
body is the entire input unchanged. -/
theorem C7_parse_description (s : Str) :
    ((∀ a b, s ≠ a ++ str "Usage:" ++ b) → parse_description s = ([], s)) ∧
    (∀ a b, s = a ++ str "Usage:" ++ b →
      (∀ a2 b2, s = a2 ++ str "Usage:" ++ b2 → a.length ≤ a2.length) →
      parse_description s = ((linesRust (trimWS a)).headD [], str "Usage:" ++ b)) := by
  constructor
  · intro h
    have hf : findSub (str "Usage:") s = none := by
      rw [findSub_none_iff]
      intro j hj
      obtain ⟨a, b, hs, -⟩ := (occursAt_iff_decomp (by decide)).mp hj
      exact h a b hs
    unfold parse_description
    rw [hf]
  · rintro a b rfl hmin
    have hf : findSub (str "Usage:") (a ++ str "Usage:" ++ b) = some a.length := by
      refine findSub_eq_some_of_first decomp_occursAt ?_
      intro j hj
      obtain ⟨a2, b2, hs, hl⟩ := (occursAt_iff_decomp (by decide)).mp hj
      exact hl ▸ hmin a2 b2 hs
    have htake : (a ++ str "Usage:" ++ b).take a.length = a := by
      rw [List.append_assoc]
      exact List.take_left a (str "Usage:" ++ b)
    have hdrop : (a ++ str "Usage:" ++ b).drop a.length = str "Usage:" ++ b := by
      rw [List.append_assoc]
      exact List.drop_left a (str "Usage:" ++ b)
    unfold parse_description
    rw [hf]
    simp only [htake, hdrop]

/-- Witness for `C7_parse_description`: the worked example of the spec. -/
theorem C7_witness :
    parse_description (str "Does a thing.\nUsage: app thing [OPTIONS]\nmore") =
      (str "Does a thing.", str "Usage: app thing [OPTIONS]\nmore") := by
  have h := (C7_parse_description
      (str "Does a thing.\nUsage: app thing [OPTIONS]\nmore")).2
    (str "Does a thing.\n") (str " app thing [OPTIONS]\nmore") (by decide) ?_
  · rw [h]
    decide
  · intro a2 b2 hs
    have hocc : occursAt (str "Usage:")
        (str "Does a thing.\nUsage: app thing [OPTIONS]\nmore") a2.length := by
      rw [hs]; exact decomp_occursAt
    have := @findSub_some_min (str "Usage:")
      (str "Does a thing.\nUsage: app thing [OPTIONS]\nmore")
      14 (by decide) a2.length hocc
    simpa using this

/-! ### Discovery loop: shared lemmas -/

theorem help_not_mem_parse (s : Str) : str "help" ∉ parse_sub_commands s := by
  intro hmem
  unfold parse_sub_commands at hmem
  split at hmem
  · simp at hmem
  · unfold scanCommandLines at hmem
    have := (List.mem_filter.mp hmem).2
    simp at this

theorem insertIdx_keys (out : List (Cmd × Str)) (c : Cmd) (v : Str) :
    (insertIdx out c v).map Prod.fst =
      if c ∈ out.map Prod.fst then out.map Prod.fst else out.map Prod.fst ++ [c] := by
  unfold insertIdx
  by_cases h : c ∈ out.map Prod.fst
  · rw [if_pos (by simpa using h), if_pos h, List.map_map]
    refine List.map_congr_left ?_
    intro p _
    by_cases hp : p.1 = c
    · simp [hp]
    · simp [hp]
  · rw [if_neg (by simpa using h), if_neg h]
    simp

theorem insertIdx_keys_nodup {out : List (Cmd × Str)} {c : Cmd} {v : Str}
    (h : (out.map Prod.fst).Nodup) : ((insertIdx out c v).map Prod.fst).Nodup := by
  rw [insertIdx_keys]
  by_cases hc : c ∈ out.map Prod.fst
  · rwa [if_pos hc]
  · rw [if_neg hc]
    refine List.Nodup.append h (List.nodup_singleton c) ?_
    intro x hx hmem
    simp at hmem
    subst hmem
    exact hc hx

theorem discoverLoop_nodup_keys {run : Cmd → Except Str Str} :
    ∀ (fuel : Nat) (stack : List Cmd) (acc out : List (Cmd × Str)),
    (acc.map Prod.fst).Nodup →
    discoverLoop run fuel stack acc = some (.ok out) → (out.map Prod.fst).Nodup := by
  intro fuel
  induction fuel with
  | zero =>
    intro stack acc out hacc h
    cases stack with
    | nil => cases h; exact hacc
    | cons c rest => cases h
  | succ n ih =>
    intro stack acc out hacc h
    cases stack with
    | nil => cases h; exact hacc
    | cons c rest =>
      unfold discoverLoop at h
      cases hg : get_entry run c with
      | error e => rw [hg] at h; cases h
      | ok pr =>
        rw [hg] at h
        exact ih _ _ _ (insertIdx_keys_nodup hacc) h

theorem discoverLoop_keys_pred {run : Cmd → Except Str Str} (P : Cmd → Prop)
    (hchild : ∀ c s stdout, P c → run c = .ok stdout →
      s ∈ parse_sub_commands stdout → P (c.child s)) :
    ∀ (fuel : Nat) (stack : List Cmd) (acc out : List (Cmd × Str)),
    (∀ c ∈ stack, P c) → (∀ k ∈ acc.map Prod.fst, P k) →
    discoverLoop run fuel stack acc = some (.ok out) →
    ∀ k ∈ out.map Prod.fst, P k := by
  intro fuel
  induction fuel with
  | zero =>
    intro stack acc out hstack hacc h
    cases stack with
    | nil => cases h; exact hacc
    | cons c rest => cases h
  | succ n ih =>
    intro stack acc out hstack hacc h
    cases stack with
    | nil => cases h; exact hacc
    | cons c rest =>
      unfold discoverLoop get_entry at h
      cases hr : run c with
      | error e => rw [hr] at h; cases h
      | ok stdout =>
        rw [hr] at h
        refine ih _ _ _ ?_ ?_ h
        · intro x hx
          rcases List.mem_append.mp hx with hx | hx
          · obtain ⟨s, hs, rfl⟩ := List.mem_map.mp hx
            exact hchild c s stdout (hstack c (by simp)) hr hs
          · exact hstack x (by simp [hx])
        · intro k hk
          rw [insertIdx_keys] at hk
          by_cases hc : c ∈ acc.map Prod.fst
          · rw [if_pos hc] at hk
            exact hacc k hk
          · rw [if_neg hc] at hk
            rcases List.mem_append.mp hk with hk | hk
            · exact hacc k hk
            · simp at hk
              exact hk ▸ hstack c (by simp)

theorem discoverLoop_error_source {run : Cmd → Except Str Str} :
    ∀ (fuel : Nat) (stack : List Cmd) (acc : List (Cmd × Str)) (e : Str),
    discoverLoop run fuel stack acc = some (.error e) → ∃ c, run c = .error e := by
  intro fuel
  induction fuel with
  | zero =>
    intro stack acc e h
    cases stack with
    | nil => cases h
    | cons c rest => cases h
  | succ n ih =>
    intro stack acc e h
    cases stack with
    | nil => cases h
    | cons c rest =>
      unfold discoverLoop get_entry at h
      cases hr : run c with
      | error e2 =>
        rw [hr] at h
        cases h
        exact ⟨c, hr⟩
      | ok stdout =>
        rw [hr] at h
        exact ih _ _ _ h

theorem discoverLoop_ok_entries {run : Cmd → Except Str Str} :
    ∀ (fuel : Nat) (stack : List Cmd) (acc out : List (Cmd × Str)),
    (∀ p ∈ acc, run p.1 = .ok p.2) →
    discoverLoop run fuel stack acc = some (.ok out) →
    ∀ p ∈ out, run p.1 = .ok p.2 := by
  intro fuel
  induction fuel with
  | zero =>
    intro stack acc out hacc h
    cases stack with
    | nil => cases h; exact hacc
    | cons c rest => cases h
  | succ n ih =>
    intro stack acc out hacc h
    cases stack with
    | nil => cases h; exact hacc
    | cons c rest =>
      unfold discoverLoop get_entry at h
      cases hr : run c with
      | error e => rw [hr] at h; cases h
      | ok stdout =>
        rw [hr] at h
        refine ih _ _ _ ?_ h
        intro p hp
        unfold insertIdx at hp
        split at hp
        · obtain ⟨q, hq, hpq⟩ := List.mem_map.mp hp
          by_cases hq1 : q.1 = c
          · rw [if_pos hq1] at hpq
            rw [← hpq]
            exact hr
          · rw [if_neg hq1] at hpq
            exact hpq ▸ hacc q hq
        · rcases List.mem_append.mp hp with hp | hp
          · exact hacc p hp
          · simp at hp
            rw [hp]
            exact hr

/-! ### C8, C9, C6: worklist invariants and failure propagation -/

/-- C8: no key of the Discovered Mapping is a command whose segment sequence
ends in the name `help`: seeds have no segments, and children named `help`
are never enqueued because `parse_sub_commands` filters the name out of
every help text. -/
theorem C8_no_help_key (run : Cmd → Except Str Str) (fuel : Nat) (paths : List Str)
    (out : List (Cmd × Str)) (h : discover run fuel paths = some (.ok out)) :
    ∀ k ∈ out.map Prod.fst, k.subcommands.getLast? ≠ some (str "help") := by
  refine discoverLoop_keys_pred
    (fun c => c.subcommands.getLast? ≠ some (str "help")) ?_
    fuel (seedCmds paths) [] out ?_ ?_ h
  · intro c s stdout _ _ hs hlast
    unfold Cmd.child at hlast
    rw [List.getLast?_concat] at hlast
    have : s = str "help" := by injection hlast
    exact help_not_mem_parse stdout (this ▸ hs)
  · intro c hc
    obtain ⟨p, _, rfl⟩ := List.mem_map.mp hc
    simp
  · intro k hk
    simp at hk

/-- Witness for `C8_no_help_key` on the worked example: the deepest
discovered key does not end in `help`. -/
theorem C8_witness :
    (⟨str "app", [str "db", str "stats"]⟩ : Cmd).subcommands.getLast? ≠
      some (str "help") :=
  C8_no_help_key exRun 10 [str "app"]
    [(⟨str "app", []⟩, exHelp ⟨str "app", []⟩),
     (⟨str "app", [str "db"]⟩, exHelp ⟨str "app", [str "db"]⟩),
     (⟨str "app", [str "db", str "stats"]⟩,
       exHelp ⟨str "app", [str "db", str "stats"]⟩)]
    (by rfl) ⟨str "app", [str "db", str "stats"]⟩ (by decide)

/-- Claim C9 asserts in particular that the subcommand-name list extracted
from any single help text contains distinct strings, and that no command is
invoked twice.  Both are false: a help text listing the same name on two
lines yields a duplicated extraction, and the worklist then pops — and hence
invokes — the same child command twice. -/
theorem C9_counterexample :
    ¬ (parse_sub_commands (str "Commands:\n  foo a\n  foo b\n")).Nodup ∧
    travLoop exHelpDup 10 (seedCmds [str "app"]) =
      some [⟨str "app", []⟩, ⟨str "app", [str "foo"]⟩, ⟨str "app", [str "foo"]⟩] := by
  exact ⟨by decide, by decide⟩

/-- C9 (amended): each (binary path, segment sequence) pair appears at most
once as a key of the Discovered Mapping (the insertion-ordered map keeps one
entry per key); however, a command may be invoked more than once when a help
text lists the same subcommand name twice or the same seed is supplied
twice, and the extracted subcommand-name list of a single help text may
contain duplicates. -/
theorem C9_amended (run : Cmd → Except Str Str) (fuel : Nat) (paths : List Str)
    (out : List (Cmd × Str)) (h : discover run fuel paths = some (.ok out)) :
    (out.map Prod.fst).Nodup :=
  discoverLoop_nodup_keys fuel (seedCmds paths) [] out (by simp) h

/-- Witness for `C9_amended`. -/
theorem C9_amended_witness :
    (([(⟨str "app", ([] : List Str)⟩, str "nothing")] : List (Cmd × Str)).map
      Prod.fst).Nodup :=
  C9_amended exRunLeaf 1 [str "app"]
    [(⟨str "app", ([] : List Str)⟩, str "nothing")] (by rfl)

/-- C6: a run in which some invocation fails aborts with that error: the
discovery phase surfaces an error only when an actual invocation failed, in
that case `main` propagates the error and renders nothing, and conversely a
run that returns a Discovered Mapping had every recorded invocation
succeed. -/
theorem C6_abort_on_failure (run : Cmd → Except Str Str) (fuel : Nat) (a : Args) (e : Str)
    (h : discover run fuel a.commands = some (.error e)) :
    (∃ c, run c = .error e) ∧ mainModel run fuel a = some (.error e) ∧
    (∀ out, discover run fuel a.commands ≠ some (.ok out)) := by
  refine ⟨discoverLoop_error_source fuel (seedCmds a.commands) [] e h, ?_, ?_⟩
  · unfold mainModel
    rw [h]
  · intro out hout
    rw [h] at hout
    cases hout

/-- Witness for `C6_abort_on_failure`: a failing top-level invocation. -/
theorem C6_witness :
    (∃ c, exRunFail c = .error (str "boom")) ∧
    mainModel exRunFail 10 exArgs = some (.error (str "boom")) ∧
    (∀ out, discover exRunFail 10 exArgs.commands ≠ some (.ok out)) :=
  C6_abort_on_failure exRunFail 10 exArgs (str "boom") (by rfl)

/-! ### C1: pre-order traversal infrastructure -/

theorem dedupF_mem (l : List Cmd) (v : Cmd) : v ∈ dedupF l ↔ v ∈ l := by
  induction l using dedupF.induct with
  | case1 => simp [dedupF]
  | case2 c l2 ih =>
    rw [dedupF]
    simp only [List.mem_cons, ih, List.mem_filter]
    constructor
    · rintro (rfl | ⟨h1, _⟩)
      · exact Or.inl rfl
      · exact Or.inr h1
    · rintro (rfl | h)
      · exact Or.inl rfl
      · by_cases hv : v = c
        · exact Or.inl hv
        · exact Or.inr ⟨h, by simpa using hv⟩

theorem dedupF_nodup (l : List Cmd) : (dedupF l).Nodup := by
  induction l using dedupF.induct with
  | case1 => simp [dedupF]
  | case2 c l2 ih =>
    rw [dedupF]
    refine List.nodup_cons.mpr ⟨?_, ih⟩
    intro hc
    have := (List.mem_filter.mp ((dedupF_mem _ _).mp hc)).2
    simp at this

theorem dedupF_append (a b : List Cmd) :
    dedupF (a ++ b) = dedupF a ++ dedupF (b.filter (fun v => v ∉ a)) := by
  induction a using dedupF.induct generalizing b with
  | case1 => simp [dedupF]
  | case2 c l2 ih =>
    show dedupF (c :: (l2 ++ b)) = _
    rw [dedupF, dedupF, List.filter_append, ih (b.filter (fun x => x ≠ c)),
      List.cons_append]
    congr 2
    refine congrArg dedupF ?_
    rw [List.filter_filter]
    refine List.filter_congr ?_
    intro v _
    by_cases hvc : v = c
    · simp [hvc]
    · by_cases hvl : v ∈ l2
      · simp [hvc, hvl]
      · simp [hvc, hvl]

/-- The pure bridge: a successful run of the worklist loop determines the
popped-command sequence, and the mapping is the fold of `IndexMap::insert`
over it. -/
theorem travLoop_bridge (help : Cmd → Str) :
    ∀ (fuel : Nat) (stack : List Cmd) (acc out : List (Cmd × Str)),
    discoverLoop (fun c => .ok (help c)) fuel stack acc = some (.ok out) →
    ∃ tr, travLoop help fuel stack = some tr ∧
      out = tr.foldl (fun o c => insertIdx o c (help c)) acc := by
  intro fuel
  induction fuel with
  | zero =>
    intro stack acc out h
    cases stack with
    | nil =>
      cases h
      exact ⟨[], rfl, rfl⟩
    | cons c rest => cases h
  | succ n ih =>
    intro stack acc out h
    cases stack with
    | nil =>
      cases h
      exact ⟨[], rfl, rfl⟩
    | cons c rest =>
      unfold discoverLoop get_entry at h
      simp only at h
      obtain ⟨tr, htr, hout⟩ := ih _ _ _ h
      refine ⟨c :: tr, ?_, ?_⟩
      · unfold travLoop children
        rw [htr]
        rfl
      · simpa using hout

/-- Keys after folding `IndexMap::insert` over a command sequence: the
already-present keys, then the first occurrences of the new ones. -/
theorem foldl_insertIdx_keys (help : Cmd → Str) :
    ∀ (tr : List Cmd) (acc : List (Cmd × Str)),
    ((tr.foldl (fun o c => insertIdx o c (help c)) acc).map Prod.fst) =
      acc.map Prod.fst ++ dedupF (tr.filter (fun v => v ∉ acc.map Prod.fst)) := by
  intro tr
  induction tr with
  | nil =>
    intro acc
    simp [dedupF]
  | cons c tr2 ih =>
    intro acc
    rw [List.foldl_cons, ih]
    by_cases hc : c ∈ acc.map Prod.fst
    · rw [insertIdx_keys, if_pos hc]
      have hfc : List.filter (fun v => decide (v ∉ List.map Prod.fst acc)) (c :: tr2) =
          List.filter (fun v => decide (v ∉ List.map Prod.fst acc)) tr2 := by
        simp [List.filter_cons, hc]
      rw [hfc]
    · rw [insertIdx_keys, if_neg hc]
      have hfc : List.filter (fun v => decide (v ∉ List.map Prod.fst acc)) (c :: tr2) =
          c :: List.filter (fun v => decide (v ∉ List.map Prod.fst acc)) tr2 := by
        simp [List.filter_cons, hc]
      rw [hfc, dedupF]
      have hXY : List.filter (fun v => decide (v ∉ List.map Prod.fst acc ++ [c])) tr2 =
          List.filter (fun x => decide (x ≠ c))
            (List.filter (fun v => decide (v ∉ List.map Prod.fst acc)) tr2) := by
        rw [List.filter_filter]
        refine List.filter_congr ?_
        intro v _
        by_cases hvc : v = c
        · simp [hvc, hc]
        · by_cases hva : v ∈ acc.map Prod.fst
          · simp [hvc, hva]
          · simp [hvc, hva]
      rw [List.append_assoc, List.singleton_append, hXY]

theorem preForest_det {help : Cmd → Str} :
    ∀ {zs t u : List Cmd}, PreForest help zs t → PreForest help zs u → t = u := by
  intro zs t u h1
  induction h1 generalizing u with
  | nil =>
    intro h2
    cases h2
    rfl
  | cons hch hcs ih1 ih2 =>
    intro h2
    cases h2 with
    | cons hch2 hcs2 => rw [ih1 hch2, ih2 hcs2]

theorem preForest_split {help : Cmd → Str} :
    ∀ {zs tr xs ys : List Cmd}, PreForest help zs tr → zs = xs ++ ys →
    ∃ t u, tr = t ++ u ∧ PreForest help xs t ∧ PreForest help ys u := by
  intro zs tr xs ys h
  induction h generalizing xs ys with
  | nil =>
    intro hz
    obtain ⟨rfl, rfl⟩ := List.append_eq_nil.mp hz.symm
    exact ⟨[], [], rfl, .nil, .nil⟩
  | @cons c cs t u hch hcs ih1 ih2 =>
    intro hz
    cases xs with
    | nil =>
      refine ⟨[], c :: (t ++ u), rfl, .nil, ?_⟩
      simp only [List.nil_append] at hz
      rw [← hz]
      exact .cons hch hcs
    | cons x xs2 =>
      simp only [List.cons_append] at hz
      injection hz with h1 h2
      subst h1
      obtain ⟨t2, u2, htu, hx2, hy2⟩ := ih2 h2
      refine ⟨c :: (t ++ t2), u2, ?_, .cons hch hx2, hy2⟩
      rw [htu]
      simp

theorem travLoop_preForest {help : Cmd → Str} :
    ∀ (fuel : Nat) (stack tr : List Cmd),
    travLoop help fuel stack = some tr → PreForest help stack tr := by
  intro fuel
  induction fuel with
  | zero =>
    intro stack tr h
    cases stack with
    | nil => cases h; exact .nil
    | cons c rest => cases h
  | succ n ih =>
    intro stack tr h
    cases stack with
    | nil => cases h; exact .nil
    | cons c rest =>
      unfold travLoop at h
      simp only [Option.map_eq_some'] at h
      obtain ⟨tr2, htr2, rfl⟩ := h
      obtain ⟨t, u, rfl, hx, hy⟩ := preForest_split (ih _ _ htr2) rfl
      exact .cons hx hy

theorem preForest_mem {help : Cmd → Str} :
    ∀ {zs tr : List Cmd}, PreForest help zs tr →
    ∀ v ∈ tr, ∃ r ∈ zs, r.cmd = v.cmd ∧ r.subcommands <+: v.subcommands := by
  intro zs tr h
  induction h with
  | nil =>
    intro v hv
    simp at hv
  | @cons c cs t u hch hcs ih1 ih2 =>
    intro v hv
    rcases List.mem_cons.mp hv with rfl | hv2
    · exact ⟨v, by simp, rfl, List.prefix_refl _⟩
    · rcases List.mem_append.mp hv2 with hvt | hvu
      · obtain ⟨r, hr, hcmd, hpre⟩ := ih1 v hvt
        obtain ⟨s, _, rfl⟩ := List.mem_map.mp hr
        refine ⟨c, by simp, hcmd, ?_⟩
        exact List.IsPrefix.trans ⟨[s], rfl⟩ hpre
      · obtain ⟨r, hr, h1, h2⟩ := ih2 v hvu
        exact ⟨r, by simp [hr], h1, h2⟩

theorem preForest_children_strict {help : Cmd → Str} {c : Cmd} {t : List Cmd}
    (h : PreForest help (children help c) t) :
    ∀ v ∈ t, c.cmd = v.cmd ∧ c.subcommands.length < v.subcommands.length ∧
      ∃ s, (c.subcommands ++ [s]) <+: v.subcommands := by
  intro v hv
  obtain ⟨r, hr, hcmd, hpre⟩ := preForest_mem h v hv
  obtain ⟨s, _, rfl⟩ := List.mem_map.mp hr
  refine ⟨hcmd, ?_, s, hpre⟩
  have := hpre.length_le
  simp only [Cmd.child, List.length_append, List.length_cons, List.length_nil] at this
  omega

theorem preForest_roots_mem {help : Cmd → Str} :
    ∀ {zs tr : List Cmd}, PreForest help zs tr → ∀ r ∈ zs, r ∈ tr := by
  intro zs tr h
  induction h with
  | nil =>
    intro r hr
    simp at hr
  | @cons c cs t u hch hcs ih1 ih2 =>
    intro r hr
    rcases List.mem_cons.mp hr with rfl | hr2
    · simp
    · simp [ih2 r hr2]

theorem preForest_sub {help : Cmd → Str} :
    ∀ {zs tr : List Cmd}, PreForest help zs tr → ∀ v ∈ tr,
    ∃ t, PreForest help (children help v) t ∧ ∀ x ∈ t, x ∈ tr := by
  intro zs tr h
  induction h with
  | nil =>
    intro v hv
    simp at hv
  | @cons c cs t u hch hcs ih1 ih2 =>
    intro v hv
    rcases List.mem_cons.mp hv with rfl | hv2
    · exact ⟨t, hch, fun x hx => by simp [hx]⟩
    · rcases List.mem_append.mp hv2 with hvt | hvu
      · obtain ⟨t2, h2, hsub⟩ := ih1 v hvt
        exact ⟨t2, h2, fun x hx => by simp [hsub x hx]⟩
      · obtain ⟨t2, h2, hsub⟩ := ih2 v hvu
        exact ⟨t2, h2, fun x hx => by simp [hsub x hx]⟩

theorem reach_mono {help : Cmd → Str} {roots roots2 : List Cmd}
    (hsub : ∀ r ∈ roots, Reach help roots2 r) :
    ∀ {v}, Reach help roots v → Reach help roots2 v := by
  intro v h
  induction h with
  | root hr => exact hsub _ hr
  | step _ hx ih => exact .step ih hx

theorem preForest_reach {help : Cmd → Str} {zs tr : List Cmd}
    (h : PreForest help zs tr) : ∀ v, v ∈ tr ↔ Reach help zs v := by
  intro v
  constructor
  · intro hv
    induction h generalizing v with
    | nil => simp at hv
    | @cons c cs t u hch hcs ih1 ih2 =>
      rcases List.mem_cons.mp hv with rfl | hv2
      · exact .root (by simp)
      · rcases List.mem_append.mp hv2 with hvt | hvu
        · refine reach_mono ?_ (ih1 _ hvt)
          intro r hr
          exact .step (.root (by simp)) hr
        · refine reach_mono ?_ (ih2 _ hvu)
          intro r hr
          exact .root (by simp [hr])
  · intro hv
    induction hv with
    | root hr => exact preForest_roots_mem h _ hr
    | step _ hx ih =>
      obtain ⟨t2, h2, hsub⟩ := preForest_sub h _ ih
      exact hsub _ (preForest_roots_mem h2 _ hx)

theorem preForest_children_disjoint {help : Cmd → Str} {c d : Cmd} {t td : List Cmd}
    (hc : PreForest help (children help c) t) (hd : PreForest help (children help d) td)
    (hlen : c.subcommands.length = d.subcommands.length) (hne : d ≠ c) :
    ∀ v ∈ td, v ∉ t ∧ v ≠ c := by
  intro v hv
  obtain ⟨hcmd_d, hlt_d, s2, hpre_d⟩ := preForest_children_strict hd v hv
  constructor
  · intro hvt
    obtain ⟨hcmd_c, hlt_c, s1, hpre_c⟩ := preForest_children_strict hc v hvt
    have hl : (c.subcommands ++ [s1]).length = (d.subcommands ++ [s2]).length := by
      simp [hlen]
    have h12 : c.subcommands ++ [s1] <+: d.subcommands ++ [s2] :=
      List.prefix_of_prefix_length_le hpre_c hpre_d (Nat.le_of_eq hl)
    have heq := h12.eq_of_length hl
    have hseg : c.subcommands = d.subcommands :=
      List.append_inj_left heq (by omega)
    apply hne
    cases c with
    | mk ccmd csub =>
      cases d with
      | mk dcmd dsub =>
        simp only at hcmd_c hcmd_d hseg
        simp [Cmd.mk.injEq]
        exact ⟨hcmd_d.trans hcmd_c.symm, hseg.symm⟩
  · intro hvc
    subst hvc
    omega

theorem preForest_filter_dup {help : Cmd → Str} {c : Cmd} {t : List Cmd}
    (hct : PreForest help (children help c) t) :
    ∀ {cs u : List Cmd}, PreForest help cs u →
    (∀ d ∈ cs, d.subcommands.length = c.subcommands.length) →
    ∃ u2, PreForest help (cs.filter (fun d => d ≠ c)) u2 ∧
      u.filter (fun v => decide (v ≠ c ∧ v ∉ t)) = u2 := by
  intro cs u h
  induction h with
  | nil => exact fun _ => ⟨[], .nil, rfl⟩
  | @cons d cs2 td u2 hch hcs ih1 ih2 =>
    intro hdep
    obtain ⟨u3, hu3, hfu⟩ := ih2 (fun x hx => hdep x (by simp [hx]))
    by_cases hdc : d = c
    · subst hdc
      have htd : td = t := preForest_det hch hct
      subst htd
      refine ⟨u3, ?_, ?_⟩
      · have hfcs : (d :: cs2).filter (fun x => decide (x ≠ d)) =
            cs2.filter (fun x => decide (x ≠ d)) := by
          simp [List.filter_cons]
        rw [hfcs]
        exact hu3
      · rw [List.filter_cons]
        simp only [ne_eq, not_true_eq_false, false_and, decide_False, if_neg,
          Bool.false_eq_true, not_false_eq_true]
        rw [List.filter_append]
        have hft : td.filter (fun v => decide (v ≠ d ∧ v ∉ td)) = [] := by
          refine List.filter_eq_nil_iff.mpr ?_
          intro v hv
          simp [hv]
        rw [hft, List.nil_append]
        exact hfu
    · have hlen_d := hdep d (by simp)
      have hdisj := preForest_children_disjoint hct hch hlen_d.symm hdc
      have hd_not_t : d ∉ t := by
        intro hdt
        have := (preForest_children_strict hct d hdt).2.1
        omega
      refine ⟨d :: (td ++ u3), ?_, ?_⟩
      · have hfcs : (d :: cs2).filter (fun x => decide (x ≠ c)) =
            d :: cs2.filter (fun x => decide (x ≠ c)) := by
          simp [List.filter_cons, hdc]
        rw [hfcs]
        exact .cons hch hu3
      · rw [List.filter_cons]
        have hdpass : decide (d ≠ c ∧ d ∉ t) = true := by
          simp [hdc, hd_not_t]
        rw [hdpass]
        simp only [if_pos]
        rw [List.filter_append]
        have hftd : td.filter (fun v => decide (v ≠ c ∧ v ∉ t)) = td := by
          refine List.filter_eq_self.mpr ?_
          intro v hv
          have := hdisj v hv
          simp [this.1, this.2]
        rw [hftd, hfu]

theorem preForest_dedup {help : Cmd → Str} :
    ∀ (n : Nat) {zs tr : List Cmd}, tr.length ≤ n → PreForest help zs tr →
    (∀ x ∈ zs, ∀ y ∈ zs, x.subcommands.length = y.subcommands.length) →
    PreForestD help (dedupF zs) (dedupF tr) := by
  intro n
  induction n with
  | zero =>
    intro zs tr hlen h hdep
    cases h with
    | nil =>
      simp only [dedupF]
      exact .nil
    | cons hch hcs => simp at hlen
  | succ n ih =>
    intro zs tr hlen h hdep
    cases h with
    | nil =>
      simp only [dedupF]
      exact .nil
    | @cons c cs t u hch hcs =>
      have ht_ne_c : ∀ v ∈ t, ¬ (v = c) := by
        intro v hv hvc
        subst hvc
        have := (preForest_children_strict hch v hv).2.1
        omega
      have hlen_t : t.length ≤ n := by
        simp only [List.length_cons, List.length_append] at hlen
        omega
      have hlen_u : u.length ≤ n := by
        simp only [List.length_cons, List.length_append] at hlen
        omega
      have hA : PreForestD help (dedupF (children help c)) (dedupF t) := by
        refine ih hlen_t hch ?_
        intro x hx y hy
        obtain ⟨sx, _, rfl⟩ := List.mem_map.mp hx
        obtain ⟨sy, _, rfl⟩ := List.mem_map.mp hy
        simp [Cmd.child]
      obtain ⟨u3, hu3, hfu⟩ := preForest_filter_dup hch hcs
        (fun d hd => hdep d (by simp [hd]) c (by simp))
      have hlen_u3 : u3.length ≤ n := by
        rw [← hfu]
        exact Nat.le_trans (List.length_filter_le _ u) hlen_u
      have hB : PreForestD help (dedupF (cs.filter (fun d => d ≠ c))) (dedupF u3) := by
        refine ih hlen_u3 hu3 ?_
        intro x hx y hy
        exact hdep x (by simp [(List.mem_filter.mp hx).1]) y
          (by simp [(List.mem_filter.mp hy).1])
      have htr : dedupF (c :: (t ++ u)) =
          c :: (dedupF t ++ dedupF ((u.filter (fun x => x ≠ c)).filter
            (fun v => v ∉ t))) := by
        rw [dedupF, List.filter_append]
        have hft : t.filter (fun x => decide (x ≠ c)) = t := by
          refine List.filter_eq_self.mpr ?_
          intro v hv
          simp [ht_ne_c v hv]
        rw [hft, dedupF_append]
      have hcomb : (u.filter (fun x => x ≠ c)).filter (fun v => v ∉ t) =
          u.filter (fun v => decide (v ≠ c ∧ v ∉ t)) := by
        rw [List.filter_filter]
        refine List.filter_congr ?_
        intro v _
        by_cases h1 : v = c
        · simp [h1]
        · by_cases h2 : v ∈ t
          · simp [h1, h2]
          · simp [h1, h2]
      rw [htr, hcomb, hfu, dedupF]
      exact .cons hA hB

theorem preForestD_sublist {help : Cmd → Str} :
    ∀ {zs tr : List Cmd}, PreForestD help zs tr → List.Sublist zs tr := by
  intro zs tr h
  induction h with
  | nil => exact List.Sublist.refl []
  | @cons c cs t u hch hcs ih1 ih2 =>
    exact (ih2.trans (List.sublist_append_right t u)).cons₂ c

theorem preForestD_adjacent {help : Cmd → Str} :
    ∀ {zs tr : List Cmd}, PreForestD help zs tr →
    ∀ l c r, tr = l ++ c :: r →
    ∀ x xs, children help c = x :: xs → r.head? = some x := by
  intro zs tr h
  induction h with
  | nil =>
    intro l c r hl
    exfalso
    have := congrArg List.length hl
    simp at this
    omega
  | @cons c2 cs t u hch hcs ih1 ih2 =>
    intro l c r hl x xs hcx
    cases l with
    | nil =>
      simp only [List.nil_append] at hl
      injection hl with h1 h2
      subst h1
      subst h2
      rw [hcx, dedupF] at hch
      cases hch with
      | cons h1 h2 => simp
    | cons y l2 =>
      injection hl with h1 h2
      rcases List.append_eq_append_iff.mp h2 with ⟨a, ha1, ha2⟩ | ⟨b, hb1, hb2⟩
      · exact ih2 a c r ha2 x xs hcx
      · cases b with
        | nil =>
          simp only [List.nil_append] at hb2
          exact ih2 [] c r hb2.symm x xs hcx
        | cons c3 b2 =>
          injection hb2 with h3 h4
          subst h3
          have hhead := ih1 l2 c b2 hb1 x xs hcx
          rw [h4]
          simp [List.append_eq, List.head?_append, hhead]

/-- C1: for every ordered seed list and every deterministic help-output
function, a completed discovery run's Discovered Mapping contains every
reachable command exactly once: its keys are duplicate-free, a command is a
key iff it is reachable from the seeds by following subcommand listings, the
(first occurrences of the) seeds appear in the order supplied, the key order
is the pre-order depth-first traversal of the (first-occurrence-deduplicated)
forest, and immediately after any command with children its first-listed
child (per that command's help text) appears — hence before any sibling of
the command or of its ancestors. -/
theorem C1_preorder (help : Cmd → Str) (fuel : Nat) (paths : List Str)
    (out : List (Cmd × Str))
    (h : discover (fun c => .ok (help c)) fuel paths = some (.ok out)) :
    (out.map Prod.fst).Nodup ∧
    (∀ v, v ∈ out.map Prod.fst ↔ Reach help (seedCmds paths) v) ∧
    List.Sublist (dedupF (seedCmds paths)) (out.map Prod.fst) ∧
    PreForestD help (dedupF (seedCmds paths)) (out.map Prod.fst) ∧
    (∀ l c r x xs, out.map Prod.fst = l ++ c :: r →
      parse_sub_commands (help c) = x :: xs → r.head? = some (c.child x)) := by
  obtain ⟨tr, htr, hout⟩ := travLoop_bridge help fuel (seedCmds paths) [] out h
  have hkeys : out.map Prod.fst = dedupF tr := by
    rw [hout, foldl_insertIdx_keys]
    simp
  have hpf : PreForest help (seedCmds paths) tr := travLoop_preForest fuel _ _ htr
  have hdep : ∀ x ∈ seedCmds paths, ∀ y ∈ seedCmds paths,
      x.subcommands.length = y.subcommands.length := by
    intro x hx y hy
    obtain ⟨px, _, rfl⟩ := List.mem_map.mp hx
    obtain ⟨py, _, rfl⟩ := List.mem_map.mp hy
    rfl
  have hD : PreForestD help (dedupF (seedCmds paths)) (dedupF tr) :=
    preForest_dedup tr.length (Nat.le_refl _) hpf hdep
  rw [hkeys]
  refine ⟨dedupF_nodup tr, ?_, preForestD_sublist hD, hD, ?_⟩
  · intro v
    rw [dedupF_mem]
    exact preForest_reach hpf v
  · intro l c r x xs hsplit hparse
    have hch : children help c = c.child x :: xs.map c.child := by
      unfold children
      rw [hparse]
      rfl
    exact preForestD_adjacent hD l c r hsplit (c.child x) _ hch

/-- Witness for `C1_preorder`: the spec's worked scenario, with Discovered
Mapping key order `[app, app db, app db stats]`. -/
theorem C1_witness :
    (exOut.map Prod.fst).Nodup ∧
    (∀ v, v ∈ exOut.map Prod.fst ↔ Reach exHelp (seedCmds [str "app"]) v) ∧
    List.Sublist (dedupF (seedCmds [str "app"])) (exOut.map Prod.fst) ∧
    PreForestD exHelp (dedupF (seedCmds [str "app"])) (exOut.map Prod.fst) ∧
    (∀ l c r x xs, exOut.map Prod.fst = l ++ c :: r →
      parse_sub_commands (exHelp c) = x :: xs → r.head? = some (c.child x)) :=
  C1_preorder exHelp 10 [str "app"] exOut (by rfl)

/-! ### Substring position toolkit for the sentinel merge -/

theorem occursAt_restrict {pat A T : Str} {j : Nat}
    (h : occursAt pat (A ++ T) j) (hj : j + pat.length ≤ A.length) :
    occursAt pat A j := by
  unfold occursAt at h ⊢
  rw [List.drop_append_of_le_length (by omega)] at h
  have heq : pat = ((A.drop j) ++ T).take pat.length :=
    (List.prefix_iff_eq_take.mp h)
  rw [List.take_append_of_le_length (by simp; omega)] at heq
  rw [List.prefix_iff_eq_take]
  exact heq

theorem occursAt_shift {pat A T : Str} {j : Nat} (hj : A.length ≤ j) :
    occursAt pat (A ++ T) j ↔ occursAt pat T (j - A.length) := by
  unfold occursAt
  rw [List.drop_append_eq_append_drop, List.drop_eq_nil_of_le hj, List.nil_append]

theorem occursAt_get {pat s : Str} {j : Nat} (h : occursAt pat s j) :
    ∀ k, k < pat.length → s[j + k]? = pat[k]? := by
  intro k hk
  obtain ⟨b, hb⟩ := h
  have h1 : (s.drop j)[k]? = pat[k]? := by
    rw [← hb, List.getElem?_append_left hk]
  rw [← h1, List.getElem?_drop]

theorem occursAt_cross_char {pat s : Str} {j m : Nat}
    (h : occursAt pat s j) (h1 : j < m) (h2 : m < j + pat.length) :
    pat[m - j]? = s[m]? := by
  have := occursAt_get h (m - j) (by omega)
  rw [(by omega : j + (m - j) = m)] at this
  exact this.symm

theorem takeWhile_append_all {p : Char → Bool} {X Y : Str}
    (hX : ∀ x ∈ X, p x = true) : (X ++ Y).takeWhile p = X ++ Y.takeWhile p := by
  induction X with
  | nil => simp
  | cons c X2 ih =>
    simp only [List.cons_append, List.takeWhile_cons]
    rw [hX c (by simp)]
    simp [ih (fun x hx => hX x (by simp [hx]))]

theorem takeWhile_append_stop {p : Char → Bool} {X Y : Str} {c : Char}
    (hX : ∀ x ∈ X, p x = true) (hc : p c = false) :
    (X ++ c :: Y).takeWhile p = X := by
  rw [takeWhile_append_all hX, List.takeWhile_cons, hc]
  simp

theorem findSub_append_shift {pat A T : Str}
    (h : ∀ j, j < A.length → ¬ occursAt pat (A ++ T) j) :
    findSub pat (A ++ T) = (findSub pat T).map (fun i => i + A.length) := by
  cases hf : findSub pat T with
  | none =>
    simp only [Option.map_none']
    rw [findSub_none_iff]
    intro j hj
    by_cases hja : j < A.length
    · exact h j hja hj
    · push_neg at hja
      rw [occursAt_shift hja] at hj
      exact findSub_none_iff.mp hf _ hj
  | some i =>
    simp only [Option.map_some']
    refine findSub_eq_some_of_first ?_ ?_
    · rw [occursAt_shift (by omega)]
      have := findSub_some_occursAt hf
      simpa using this
    · intro j hj
      by_cases hja : j < A.length
      · exact absurd hj (h j hja)
      · push_neg at hja
        rw [occursAt_shift hja] at hj
        have := findSub_some_min hf _ hj
        omega

theorem findSub_self_prefix {pat X : Str} : findSub pat (pat ++ X) = some 0 :=
  findSub_eq_some_of_first ⟨X, by simp⟩ (fun j _ => Nat.zero_le j)

/-! ### Concrete facts about the sentinel markers -/

theorem SS_len : SECTION_START.length = 28 := by decide

theorem SE_len : SECTION_END.length = 26 := by decide

theorem SS_get0 : SECTION_START[0]? = some '<' := by decide

theorem SE_get0 : SECTION_END[0]? = some '<' := by decide

theorem SS_no_lt : ∀ k, k < 28 → 0 < k → SECTION_START[k]? ≠ some '<' := by decide

theorem SE_no_lt : ∀ k, k < 26 → 0 < k → SECTION_END[k]? ≠ some '<' := by decide

theorem SS_last : SECTION_START[27]? = some '>' := by decide

theorem SE_last : SECTION_END[25]? = some '>' := by decide

theorem nl_not_in_SE : '\n' ∉ SECTION_END := by decide

theorem SE_not_occ_SS : ∀ j, j ≤ 2 → ¬ (SECTION_END <+: SECTION_START.drop j) := by
  decide

/-- No occurrence of a marker-like pattern (starting with `<`, with no other
`<`, ending in `>`) starts strictly before the end of `P ++ W` when `P` does
not contain the pattern, `W` is whitespace, and the boundary is followed by a
`<`. -/
theorem no_occ_in_ws_prefix {pat P W T : Str} {j : Nat}
    (hP : ¬ containsSub pat P)
    (hW : ∀ c ∈ W, uniWS c = true)
    (hlast : pat[pat.length - 1]? = some '>')
    (hno_lt : ∀ k, k < pat.length → 0 < k → pat[k]? ≠ some '<')
    (hT0 : T[0]? = some '<')
    (hne : pat ≠ [])
    (hj : j < P.length + W.length) :
    ¬ occursAt pat ((P ++ W) ++ T) j := by
  intro hocc
  have hplen : 0 < pat.length := List.length_pos.mpr hne
  by_cases h1 : j + pat.length ≤ P.length
  · rw [List.append_assoc] at hocc
    exact hP ⟨j, occursAt_restrict hocc h1⟩
  · push_neg at h1
    by_cases h2 : j + pat.length ≤ P.length + W.length
    · have hlen := occursAt_get hocc (pat.length - 1) (by omega)
      have hidx : j + (pat.length - 1) < (P ++ W).length := by
        simp only [List.length_append]
        omega
      rw [List.getElem?_append_left hidx] at hlen
      have hidx2 : P.length ≤ j + (pat.length - 1) := by omega
      rw [List.getElem?_append_right hidx2, hlast] at hlen
      have hmem : '>' ∈ W := List.getElem?_mem hlen
      have := hW '>' hmem
      simp [uniWS] at this
    · push_neg at h2
      have hcross := occursAt_cross_char hocc (m := (P ++ W).length)
        (by simp only [List.length_append]; omega)
        (by simp only [List.length_append]; omega)
      rw [List.getElem?_append_right (Nat.le_refl _), Nat.sub_self, hT0] at hcross
      refine hno_lt ((P ++ W).length - j) ?_ ?_ hcross
      · simp only [List.length_append]
        omega
      · simp only [List.length_append]
        omega

/-- No occurrence of a marker-like pattern starts strictly before the end of
`'\n' :: mid ++ ['\n']` when `mid` does not contain the pattern, the pattern
contains no newline, and the boundary is followed by a `<`. -/
theorem no_occ_in_nl_wrap {pat mid T : Str} {j : Nat}
    (hmid : ¬ containsSub pat mid)
    (hnl : '\n' ∉ pat)
    (hno_lt : ∀ k, k < pat.length → 0 < k → pat[k]? ≠ some '<')
    (hT0 : T[0]? = some '<')
    (hne : pat ≠ [])
    (hj : j < mid.length + 2) :
    ¬ occursAt pat (('\n' :: mid ++ ['\n']) ++ T) j := by
  intro hocc
  have hplen : 0 < pat.length := List.length_pos.mpr hne
  have hA : ('\n' :: mid ++ ['\n']).length = mid.length + 2 := by simp
  cases j with
  | zero =>
    have h0 := occursAt_get hocc 0 hplen
    simp only [Nat.zero_add] at h0
    have hs0 : ((('\n' :: mid ++ ['\n']) ++ T))[0]? = some '\n' := by
      rw [List.getElem?_append_left (by simp)]
      simp
    rw [hs0] at h0
    exact hnl (List.getElem?_mem h0.symm)
  | succ j2 =>
    by_cases h1 : (j2 + 1) + pat.length ≤ 1 + mid.length
    · have hres : occursAt pat ('\n' :: mid) (j2 + 1) := by
        have hre : (('\n' :: mid ++ ['\n']) ++ T) = ('\n' :: mid) ++ (['\n'] ++ T) := by
          simp
        rw [hre] at hocc
        exact occursAt_restrict hocc (by simp; omega)
      have : occursAt pat mid j2 := by
        unfold occursAt at hres ⊢
        simpa using hres
      exact hmid ⟨j2, this⟩
    · by_cases h2 : (j2 + 1) + pat.length ≤ mid.length + 2
      · have hk := occursAt_get hocc (pat.length - 1) (by omega)
        have hj_eq : (j2 + 1) + (pat.length - 1) = mid.length + 1 := by omega
        rw [hj_eq] at hk
        have hsv : ((('\n' :: mid ++ ['\n']) ++ T))[mid.length + 1]? = some '\n' := by
          rw [List.getElem?_append_left (by simp)]
          have : ('\n' :: mid ++ ['\n']) = ('\n' :: mid) ++ ['\n'] := by simp
          rw [this]
          have hl : ('\n' :: mid).length = mid.length + 1 := by simp
          rw [← hl]
          exact List.getElem?_concat_length _ _
        rw [hsv] at hk
        exact hnl (List.getElem?_mem hk.symm)
      · push_neg at h2
        have hcross := occursAt_cross_char hocc (m := mid.length + 2)
          (by omega) (by omega)
        have hsm : ((('\n' :: mid ++ ['\n']) ++ T))[mid.length + 2]? = some '<' := by
          rw [← hA, List.getElem?_append_right (Nat.le_refl _), Nat.sub_self]
          exact hT0
        rw [hsm] at hcross
        exact hno_lt _ (by omega) (by omega) hcross

/-- No occurrence of the end marker starts inside the start marker when the
start marker is followed by a newline. -/
theorem no_occ_end_in_start {T : Str} {j : Nat} (hj : j < SECTION_START.length)
    (hT0 : T[0]? = some '\n') :
    ¬ occursAt SECTION_END (SECTION_START ++ T) j := by
  intro hocc
  have h28 := SS_len
  have h26 := SE_len
  by_cases h1 : j + SECTION_END.length ≤ SECTION_START.length
  · have := occursAt_restrict hocc h1
    exact SE_not_occ_SS j (by omega) this
  · push_neg at h1
    have hcross := occursAt_cross_char hocc (m := SECTION_START.length)
      (by omega) (by omega)
    rw [List.getElem?_append_right (Nat.le_refl _), Nat.sub_self, hT0] at hcross
    exact nl_not_in_SE (List.getElem?_mem hcross)

theorem take_append_len {A X : Str} {n : Nat} (h : n = A.length) :
    (A ++ X).take n = A := by
  subst h
  exact List.take_left A X

theorem drop_append_len {A X : Str} {n : Nat} (h : n = A.length) :
    (A ++ X).drop n = X := by
  subst h
  exact List.drop_left A X

theorem takeWhile_rev_nonws {P : Str}
    (hPlast : ∀ c, P.getLast? = some c → uniWS c = false) :
    P.reverse.takeWhile (fun c => uniWS c) = [] := by
  cases hP : P.reverse with
  | nil => rfl
  | cons c rest =>
    have hlast : P.getLast? = some c := by
      rw [← List.head?_reverse, hP]
      rfl
    rw [List.takeWhile_cons]
    simp [hPlast c hlast]

theorem findSub_SS_wf {P W mid R : Str}
    (hP : ¬ containsSub SECTION_START P)
    (hW : ∀ c ∈ W, uniWS c = true) :
    findSub SECTION_START (wfContent P W mid R) = some (P.length + W.length) := by
  have hre : wfContent P W mid R = (P ++ W) ++
      (SECTION_START ++ ('\n' :: (mid ++ ('\n' :: (SECTION_END ++ ('\n' :: R)))))) := by
    simp [wfContent]
  have hside : ∀ j, j < (P ++ W).length → ¬ occursAt SECTION_START ((P ++ W) ++
      (SECTION_START ++ ('\n' :: (mid ++ ('\n' :: (SECTION_END ++ ('\n' :: R))))))) j := by
    intro j hj
    refine no_occ_in_ws_prefix hP hW (by decide) (by decide) ?_ (by decide) ?_
    · rw [List.getElem?_append_left (by decide)]
      exact SS_get0
    · simpa using hj
  rw [hre, findSub_append_shift hside, findSub_self_prefix]
  simp

theorem findSub_SE_T2 {mid R : Str} (hmidE : ¬ containsSub SECTION_END mid) :
    findSub SECTION_END ('\n' :: (mid ++ ('\n' :: (SECTION_END ++ ('\n' :: R))))) =
      some (mid.length + 2) := by
  have hre : '\n' :: (mid ++ ('\n' :: (SECTION_END ++ ('\n' :: R)))) =
      ('\n' :: mid ++ ['\n']) ++ (SECTION_END ++ ('\n' :: R)) := by
    simp
  have hside : ∀ j, j < ('\n' :: mid ++ ['\n']).length → ¬ occursAt SECTION_END
      (('\n' :: mid ++ ['\n']) ++ (SECTION_END ++ ('\n' :: R))) j := by
    intro j hj
    refine no_occ_in_nl_wrap hmidE (by decide) (by decide) ?_ (by decide) ?_
    · rw [List.getElem?_append_left (by decide)]
      exact SE_get0
    · simpa using hj
  rw [hre, findSub_append_shift hside, findSub_self_prefix]
  simp only [Option.map_some', Nat.zero_add]
  congr 1
  simp only [List.length_append, List.length_cons, List.length_nil]

theorem findSub_SE_wf {P W mid R : Str}
    (hPE : ¬ containsSub SECTION_END P)
    (hW : ∀ c ∈ W, uniWS c = true)
    (hmidE : ¬ containsSub SECTION_END mid) :
    findSub SECTION_END (wfContent P W mid R) =
      some (P.length + W.length + SECTION_START.length + (mid.length + 2)) := by
  have hre : wfContent P W mid R = (P ++ W) ++ (SECTION_START ++
      ('\n' :: (mid ++ ('\n' :: (SECTION_END ++ ('\n' :: R)))))) := by
    simp [wfContent]
  have hside1 : ∀ j, j < (P ++ W).length → ¬ occursAt SECTION_END ((P ++ W) ++
      (SECTION_START ++ ('\n' :: (mid ++ ('\n' :: (SECTION_END ++ ('\n' :: R))))))) j := by
    intro j hj
    refine no_occ_in_ws_prefix hPE hW (by decide) (by decide) ?_ (by decide) ?_
    · rw [List.getElem?_append_left (by decide)]
      exact SS_get0
    · simpa using hj
  have hside2 : ∀ j, j < SECTION_START.length → ¬ occursAt SECTION_END
      (SECTION_START ++ ('\n' :: (mid ++ ('\n' :: (SECTION_END ++ ('\n' :: R)))))) j := by
    intro j hj
    refine no_occ_end_in_start hj ?_
    simp
  rw [hre, findSub_append_shift hside1, findSub_append_shift hside2,
    findSub_SE_T2 hmidE]
  simp only [Option.map_some']
  congr 1
  simp only [List.length_append]
  all_goals omega

theorem sectionEndLineAt_wf {P W mid R : Str} :
    sectionEndLineAt (wfContent P W mid R)
      (P.length + W.length + SECTION_START.length + (mid.length + 2)) =
      SECTION_END := by
  have hA : wfContent P W mid R =
      (P ++ W ++ SECTION_START ++ '\n' :: mid ++ ['\n']) ++
        (SECTION_END ++ '\n' :: R) := by
    simp [wfContent]
  have hAlen : P.length + W.length + SECTION_START.length + (mid.length + 2) =
      (P ++ W ++ SECTION_START ++ '\n' :: mid ++ ['\n']).length := by
    simp
    omega
  have htake : (wfContent P W mid R).take
      (P.length + W.length + SECTION_START.length + (mid.length + 2)) =
      P ++ W ++ SECTION_START ++ '\n' :: mid ++ ['\n'] := by
    rw [hA]
    exact take_append_len hAlen
  have hdrop : (wfContent P W mid R).drop
      (P.length + W.length + SECTION_START.length + (mid.length + 2)) =
      SECTION_END ++ '\n' :: R := by
    rw [hA]
    exact drop_append_len hAlen
  simp only [sectionEndLineAt]
  rw [htake]
  have hrev : (P ++ W ++ SECTION_START ++ '\n' :: mid ++ ['\n']).reverse =
      '\n' :: (P ++ W ++ SECTION_START ++ '\n' :: mid).reverse := by
    simp
  rw [hrev, List.takeWhile_cons]
  simp only [decide_eq_true_eq, ne_eq, not_true_eq_false, decide_False,
    Bool.false_eq_true, if_neg, not_false_eq_true, List.length_nil, Nat.sub_zero]
  rw [hdrop]
  have hline : (SECTION_END ++ '\n' :: R).takeWhile (fun c => c ≠ '\n') =
      SECTION_END := by
    refine takeWhile_append_stop ?_ ?_
    · decide
    · decide
  rw [hline]
  decide

theorem sectionEndMatch_wf {P W mid R : Str}
    (hPE : ¬ containsSub SECTION_END P)
    (hW : ∀ c ∈ W, uniWS c = true)
    (hmidE : ¬ containsSub SECTION_END mid) :
    sectionEndMatch (wfContent P W mid R) = SECTION_END := by
  unfold sectionEndMatch
  rw [findSub_SE_wf hPE hW hmidE]
  simp only [Option.map_some', Option.getD_some]
  exact sectionEndLineAt_wf

/-- Computation of the merge on a well-formed content: the whitespace run,
both marker lines and the section body are replaced by the interpolated
replacement; the prefix `P` and the suffix after the end-marker line survive
unchanged. -/
theorem update_root_summary_wf {file P W mid R F : Str}
    (hW : ∀ c ∈ W, uniWS c = true)
    (hPlast : ∀ c, P.getLast? = some c → uniWS c = false)
    (hPS : ¬ containsSub SECTION_START P)
    (hPE : ¬ containsSub SECTION_END P)
    (hmidE : ¬ containsSub SECTION_END mid) :
    update_root_summary file (wfContent P W mid R) F =
      .ok (P ++ expandDollar (wfMatched W mid) (wfRepl F) ++ '\n' :: R) := by
  have hdrop1 : (wfContent P W mid R).drop (P.length + W.length + SECTION_START.length) =
      '\n' :: (mid ++ ('\n' :: (SECTION_END ++ ('\n' :: R)))) := by
    have hre : wfContent P W mid R = (P ++ W ++ SECTION_START) ++
        ('\n' :: (mid ++ ('\n' :: (SECTION_END ++ ('\n' :: R))))) := by
      simp [wfContent]
    rw [hre]
    exact drop_append_len (by simp only [List.length_append])
  unfold update_root_summary
  rw [findSub_SS_wf hPS hW]
  simp only [Option.bind_some, Option.some_bind]
  rw [hdrop1, findSub_SE_T2 hmidE]
  simp only [Option.map_some', Option.getD_some]
  congr 1
  simp only [updateOk]
  have h1 : (wfContent P W mid R).take (P.length + W.length) = P ++ W := by
    have hre : wfContent P W mid R = (P ++ W) ++ (SECTION_START ++
        ('\n' :: (mid ++ ('\n' :: (SECTION_END ++ ('\n' :: R)))))) := by
      simp [wfContent]
    rw [hre]
    exact take_append_len (by simp only [List.length_append])
  rw [h1]
  have h2 : ((P ++ W).reverse.takeWhile (fun c => uniWS c)).length = W.length := by
    rw [List.reverse_append]
    rw [takeWhile_append_all (fun x hx => hW x (List.mem_reverse.mp hx))]
    rw [takeWhile_rev_nonws hPlast]
    simp
  rw [h2]
  have h4 : P.length + W.length - W.length = P.length := by omega
  rw [h4]
  rw [sectionEndMatch_wf hPE hW hmidE]
  have h6 : (wfContent P W mid R).drop P.length = wfMatched W mid ++ '\n' :: R := by
    have hre : wfContent P W mid R = P ++ (wfMatched W mid ++ '\n' :: R) := by
      simp [wfContent, wfMatched]
    rw [hre]
    exact drop_append_len rfl
  rw [h6]
  have h9 : P.length + W.length + SECTION_START.length + (mid.length + 2) +
      SECTION_END.length - P.length = (wfMatched W mid).length := by
    simp only [wfMatched, List.length_append, List.length_cons]
    omega
  rw [h9, take_append_len rfl]
  have h5 : (wfContent P W mid R).take P.length = P := by
    have hre : wfContent P W mid R = P ++ (wfMatched W mid ++ '\n' :: R) := by
      simp [wfContent, wfMatched]
    rw [hre]
    exact take_append_len rfl
  rw [h5]
  have h8 : (wfContent P W mid R).drop
      (P.length + W.length + SECTION_START.length + (mid.length + 2) +
        SECTION_END.length) = '\n' :: R := by
    have hre : wfContent P W mid R = (P ++ wfMatched W mid) ++ '\n' :: R := by
      simp [wfContent, wfMatched]
    rw [hre]
    refine drop_append_len ?_
    simp only [wfMatched, List.length_append, List.length_cons]
    omega
  rw [h8]
  rfl

theorem not_containsSub_of_findSub_none {pat s : Str} (h : findSub pat s = none) :
    ¬ containsSub pat s := by
  rintro ⟨j, hj⟩
  exact findSub_none_iff.mp h j hj

theorem expandDollarFuel_no_dollar (whole : Str) :
    ∀ (f : Nat) (rep : Str), '$' ∉ rep → expandDollarFuel whole f rep = rep := by
  intro f
  induction f with
  | zero =>
    intro rep _
    rfl
  | succ k ih =>
    intro rep h
    rw [expandDollarFuel.eq_def]
    split
    · rfl
    · rename_i f0 heq
      have hf : f0 = k := by omega
      subst hf
      split
      · rfl
      · simp at h
      · simp at h
      · simp at h
      · simp only [List.cons.injEq, true_and]
        apply ih
        intro hmem
        rename_i hd tl hr1 hr2 hr3
        exact h (List.mem_cons_of_mem hd hmem)

theorem expandDollar_id {whole rep : Str} (h : '$' ∉ rep) :
    expandDollar whole rep = rep :=
  expandDollarFuel_no_dollar whole rep.length rep h

theorem dollar_not_in_SS : '$' ∉ SECTION_START := by decide

theorem dollar_not_in_SE : '$' ∉ SECTION_END := by decide

theorem wfRepl_no_dollar {F : Str} (h : '$' ∉ collapseNN (trimEnd F)) :
    '$' ∉ wfRepl F := by
  intro hmem
  unfold wfRepl at hmem
  rcases List.mem_append.mp hmem with h1 | h1
  · rcases List.mem_append.mp h1 with h2 | h2
    · rcases List.mem_cons.mp h2 with h3 | h3
      · cases h3
      · exact dollar_not_in_SS h3
    · rcases List.mem_cons.mp h2 with h3 | h3
      · cases h3
      · exact h h3
  · rcases List.mem_cons.mp h1 with h3 | h3
    · cases h3
    · exact dollar_not_in_SE h3

/-! ### C4: missing markers -/

/-- C4: when the start marker or the end marker is missing from the
index-file content, the merge fails with the missing-markers error — whose
message names both expected markers and the file path — and produces no new
content (the real program exits before writing, leaving the file
unmodified). -/
theorem C4_missing_markers (file content F : Str)
    (h : (∀ j, ¬ occursAt SECTION_START content j) ∨
         (∀ j, ¬ occursAt SECTION_END content j)) :
    update_root_summary file content F = .error (missingMarkersMsg file) ∧
    containsSub SECTION_START (missingMarkersMsg file) ∧
    containsSub SECTION_END (missingMarkersMsg file) ∧
    containsSub file (missingMarkersMsg file) ∧
    (∀ N, update_root_summary file content F ≠ .ok N) := by
  have herr : update_root_summary file content F = .error (missingMarkersMsg file) := by
    unfold update_root_summary
    rcases h with h | h
    · rw [findSub_none_iff.mpr h]
      rfl
    · cases hf : findSub SECTION_START content with
      | none => rfl
      | some i0 =>
        have hnone : findSub SECTION_END (content.drop (i0 + SECTION_START.length)) =
            none := by
          rw [findSub_none_iff]
          intro j hj
          refine h (i0 + SECTION_START.length + j) ?_
          unfold occursAt at hj ⊢
          rwa [List.drop_drop] at hj
        simp only [Option.some_bind]
        rw [hnone]
        rfl
  refine ⟨herr, ?_, ?_, ?_, ?_⟩
  · refine ⟨(str "Could not find CLI_REFERENCE section in " ++ file ++
      str ". Please add the following section to the file:\n").length, ?_⟩
    have hd : missingMarkersMsg file =
        (str "Could not find CLI_REFERENCE section in " ++ file ++
          str ". Please add the following section to the file:\n") ++
        SECTION_START ++
        (str "\n... CLI Reference goes here ...\n\n" ++ SECTION_END) := by
      simp [missingMarkersMsg]
    rw [hd]
    exact decomp_occursAt
  · refine ⟨(str "Could not find CLI_REFERENCE section in " ++ file ++
      str ". Please add the following section to the file:\n" ++ SECTION_START ++
      str "\n... CLI Reference goes here ...\n\n").length, ?_⟩
    have hd : missingMarkersMsg file =
        (str "Could not find CLI_REFERENCE section in " ++ file ++
          str ". Please add the following section to the file:\n" ++ SECTION_START ++
          str "\n... CLI Reference goes here ...\n\n") ++
        SECTION_END ++ [] := by
      simp [missingMarkersMsg]
    rw [hd]
    exact decomp_occursAt
  · refine ⟨(str "Could not find CLI_REFERENCE section in ").length, ?_⟩
    have hd : missingMarkersMsg file =
        str "Could not find CLI_REFERENCE section in " ++ file ++
        (str ". Please add the following section to the file:\n" ++ SECTION_START ++
          str "\n... CLI Reference goes here ...\n\n" ++ SECTION_END) := by
      simp [missingMarkersMsg]
    rw [hd]
    exact decomp_occursAt
  · intro N hN
    rw [herr] at hN
    cases hN

/-- Witness for `C4_missing_markers`: content with no markers at all. -/
theorem C4_witness :
    update_root_summary (str "f") (str "no markers") (str "frag") =
      .error (missingMarkersMsg (str "f")) ∧
    containsSub SECTION_START (missingMarkersMsg (str "f")) ∧
    containsSub SECTION_END (missingMarkersMsg (str "f")) ∧
    containsSub (str "f") (missingMarkersMsg (str "f")) ∧
    (∀ N, update_root_summary (str "f") (str "no markers") (str "frag") ≠ .ok N) :=
  C4_missing_markers (str "f") (str "no markers") (str "frag")
    (Or.inl (findSub_none_iff.mp (by decide)))

/-! ### C5: frame of the merge -/

/-- Claim C5 states that every byte before the start marker survives the
merge unchanged.  It is false: the section regex starts at `\s*`, so the
whitespace run immediately preceding the start marker (here the two newlines
at indices 1 and 2) is part of the match and is replaced by a single space —
the byte at index 1, before the start marker in both input and output,
changes from a newline to a space. -/
theorem C5_counterexample :
    update_root_summary (str "f") exC5 (str "frag") = .ok exC5N ∧
    findSub SECTION_START exC5 = some 3 ∧
    findSub SECTION_START exC5N = some 2 ∧
    exC5[1]? = some '\n' ∧ exC5N[1]? = some ' ' := by
  refine ⟨by rfl, by decide, by decide, by decide, by decide⟩

/-- C5 (amended): on a content whose markers stand on their own lines, the
merge changes only the region from the start of the whitespace run
immediately preceding the start marker through the matched end marker; every
byte before that run (`P`) and after the end marker (`'\n' :: R`) is
identical in the output. -/
theorem C5_amended (file P W mid R F : Str)
    (hW : ∀ c ∈ W, uniWS c = true)
    (hPlast : ∀ c, P.getLast? = some c → uniWS c = false)
    (hPS : ¬ containsSub SECTION_START P)
    (hPE : ¬ containsSub SECTION_END P)
    (hmidE : ¬ containsSub SECTION_END mid) :
    ∃ ins, update_root_summary file (wfContent P W mid R) F =
      .ok (P ++ ins ++ '\n' :: R) :=
  ⟨_, update_root_summary_wf hW hPlast hPS hPE hmidE⟩

/-- Witness for `C5_amended`. -/
theorem C5_amended_witness :
    ∃ ins, update_root_summary (str "f")
      (wfContent (str "# Summary") (str "\n\n") (str "old") (str "\n# Tail"))
      (str "- entry\n") =
      .ok (str "# Summary" ++ ins ++ '\n' :: str "\n# Tail") :=
  C5_amended (str "f") (str "# Summary") (str "\n\n") (str "old") (str "\n# Tail")
    (str "- entry\n")
    (by decide)
    (by
      intro c hc
      rw [show List.getLast? (str "# Summary") = some 'y' by decide] at hc
      injection hc with h2
      subst h2
      decide)
    (not_containsSub_of_findSub_none (by decide))
    (not_containsSub_of_findSub_none (by decide))
    (not_containsSub_of_findSub_none (by decide))

/-! ### C3: idempotence of the merge -/

/-- Claim C3 states the merge is idempotent for every content with both
marker lines and every fragment.  It is false: a fragment containing the end
marker makes the second run match up to the end marker inside the inserted
fragment, duplicating the fragment line. -/
theorem C3_counterexample :
    update_root_summary (str "f") exRootContent exC3frag = .ok exC3N1 ∧
    update_root_summary (str "f") exC3N1 exC3frag = .ok exC3N2 ∧
    exC3N1 ≠ exC3N2 := by
  refine ⟨by rfl, by rfl, by decide⟩

/-- C3 (amended): on a content whose markers stand on their own lines, and
for a fragment whose normalized form (trailing whitespace trimmed, double
newlines collapsed) contains neither the end marker nor a dollar sign,
applying the merge twice yields byte-identical content to applying it
once. -/
theorem C3_amended (file P W mid R F : Str)
    (hW : ∀ c ∈ W, uniWS c = true)
    (hPlast : ∀ c, P.getLast? = some c → uniWS c = false)
    (hPS : ¬ containsSub SECTION_START P)
    (hPE : ¬ containsSub SECTION_END P)
    (hmidE : ¬ containsSub SECTION_END mid)
    (hFE : ¬ containsSub SECTION_END (collapseNN (trimEnd F)))
    (hFD : '$' ∉ collapseNN (trimEnd F)) :
    ∃ N, update_root_summary file (wfContent P W mid R) F = .ok N ∧
      update_root_summary file N F = .ok N := by
  have h1 := @update_root_summary_wf file P W mid R F hW hPlast hPS hPE hmidE
  rw [expandDollar_id (wfRepl_no_dollar hFD)] at h1
  have hN : P ++ wfRepl F ++ '\n' :: R =
      wfContent P [' '] (collapseNN (trimEnd F)) R := by
    simp [wfRepl, wfContent]
  have h2 := @update_root_summary_wf file P [' ']
    (collapseNN (trimEnd F)) R F
    (by
      intro c hc
      simp at hc
      subst hc
      decide)
    hPlast hPS hPE hFE
  rw [expandDollar_id (wfRepl_no_dollar hFD)] at h2
  refine ⟨P ++ wfRepl F ++ '\n' :: R, h1, ?_⟩
  rw [hN, h2, ← hN]

/-- Witness for `C3_amended`. -/
theorem C3_amended_witness :
    ∃ N, update_root_summary (str "f")
      (wfContent (str "# Summary") (str "\n\n") (str "old") (str "\n# Tail"))
      (str "- [x](./x.md)\n") = .ok N ∧
    update_root_summary (str "f") N (str "- [x](./x.md)\n") = .ok N :=
  C3_amended (str "f") (str "# Summary") (str "\n\n") (str "old") (str "\n# Tail")
    (str "- [x](./x.md)\n")
    (by decide)
    (by
      intro c hc
      rw [show List.getLast? (str "# Summary") = some 'y' by decide] at hc
      injection hc with h2
      subst h2
      decide)
    (not_containsSub_of_findSub_none (by decide))
    (not_containsSub_of_findSub_none (by decide))
    (not_containsSub_of_findSub_none (by decide))
    (not_containsSub_of_findSub_none (by decide))
    (by decide)

/-! ### C10: markdown document path extension -/

theorem takeWhile_all {p : Char → Bool} {X : Str} (hX : ∀ x ∈ X, p x = true) :
    X.takeWhile p = X := by
  have := takeWhile_append_all (Y := ([] : Str)) hX
  simpa using this

/-- Claim C10 states the `.md` suffix is appended only when the final
component contains no dot, and otherwise the text after the final dot is
replaced.  It is false for a final component whose only dot is its leading
character: Rust `Path::with_extension` treats such a name as having no
extension, so `.app` becomes `.app.md` rather than `.md`. -/
theorem C10_counterexample :
    cmd_md_path (str "out") ⟨str ".app", []⟩ = str "out/.app.md" ∧
    claimMdPath (str "out") ⟨str ".app", []⟩ = str "out/.md" ∧
    cmd_md_path (str "out") ⟨str ".app", []⟩ ≠
      claimMdPath (str "out") ⟨str ".app", []⟩ := by
  exact ⟨by decide, by decide, by decide⟩

theorem fileStem_no_dot {g : Str} (h : '.' ∉ g) : fileStem g = g := by
  have htw : g.reverse.takeWhile (fun ch => ch ≠ '.') = g.reverse := by
    refine takeWhile_all ?_
    intro x hx
    have hxg : x ∈ g := List.mem_reverse.mp hx
    simp only [ne_eq, decide_eq_true_eq]
    intro he
    exact h (he ▸ hxg)
  simp only [fileStem]
  rw [htw]
  simp

/-- C10 (amended): writing the generated document path's final component as
`f` (preceded by a separator), the extension `.md` is appended when `f`
contains no dot and also when the only dot of `f` is its leading character;
when `f` has a proper stem and extension, the text after the final dot of
`f` is replaced by `md`.  Two component names are special, following Rust's
path normalization: a final `..` component means the path has no file name
and is left unchanged, and a final `.` component is skipped, the extension
rule then applying to the preceding component. -/
theorem C10_amended (out_dir d f : Str) (c : Cmd)
    (hsplit : joinPath out_dir (pathSafe c) = d ++ '/' :: f)
    (hf : '/' ∉ f) (hne : f ≠ []) :
    ('.' ∉ f → cmd_md_path out_dir c = d ++ '/' :: (f ++ str ".md")) ∧
    (∀ ext, f = '.' :: ext → ext ≠ [] → '.' ∉ ext →
      cmd_md_path out_dir c = d ++ '/' :: (f ++ str ".md")) ∧
    (∀ stem ext, f = stem ++ '.' :: ext → '.' ∉ ext → stem ≠ [] →
      f ≠ str ".." →
      cmd_md_path out_dir c = d ++ '/' :: (stem ++ str ".md")) ∧
    (f = str ".." → cmd_md_path out_dir c = d ++ '/' :: f) ∧
    (f = str "." → '/' ∉ d → '.' ∉ d → d ≠ [] →
      cmd_md_path out_dir c = d ++ str ".md") := by
  have h0 : cmd_md_path out_dir c = withExtMd (d ++ '/' :: f) := by
    unfold cmd_md_path
    rw [hsplit]
  have hrev : (d ++ '/' :: f).reverse = f.reverse ++ '/' :: d.reverse := by
    simp
  have hL : (d ++ '/' :: f).length = (d.length + f.length) + 1 := by
    simp only [List.length_append, List.length_cons]
    omega
  have htwf : (f.reverse ++ '/' :: d.reverse).takeWhile (fun ch => ch ≠ '/') =
      f.reverse := by
    refine takeWhile_append_stop ?_ (by decide)
    intro x hx
    have hxf : x ∈ f := List.mem_reverse.mp hx
    simp only [ne_eq, decide_eq_true_eq]
    intro he
    exact hf (he ▸ hxf)
  have hda : (f.reverse ++ '/' :: d.reverse).drop f.reverse.length =
      '/' :: d.reverse := drop_append_len rfl
  have hsome : f ≠ ['.'] → f ≠ ['.', '.'] →
      fileNameRev ((d.length + f.length) + 1) (f.reverse ++ '/' :: d.reverse) =
        some (f.reverse, '/' :: d.reverse) := by
    intro hd1 hd2
    have c1 : ¬(f.reverse = [] ∨ f.reverse = ['.']) := by
      rintro (h | h)
      · exact hne (by simpa using congrArg List.reverse h)
      · exact hd1 (by simpa using congrArg List.reverse h)
    have c2 : ¬(f.reverse = ['.', '.']) := by
      intro h
      exact hd2 (by simpa using congrArg List.reverse h)
    simp only [fileNameRev]
    rw [htwf, hda, if_neg c1, if_neg c2]
  have hbase : f ≠ ['.'] → f ≠ ['.', '.'] →
      cmd_md_path out_dir c = (d ++ ['/']) ++ fileStem f ++ str ".md" := by
    intro hd1 hd2
    rw [h0]
    simp only [withExtMd]
    rw [hL, hrev, hsome hd1 hd2]
    simp
  refine ⟨?_, ?_, ?_, ?_, ?_⟩
  · intro hdot
    have hd1 : f ≠ ['.'] := by
      rintro rfl
      exact hdot (by decide)
    have hd2 : f ≠ ['.', '.'] := by
      rintro rfl
      exact hdot (by decide)
    rw [hbase hd1 hd2, fileStem_no_dot hdot]
    simp
  · rintro ext rfl hnee hdot
    have hrev2 : ('.' :: ext).reverse = ext.reverse ++ '.' :: [] := by simp
    have htw : ('.' :: ext).reverse.takeWhile (fun ch => ch ≠ '.') = ext.reverse := by
      rw [hrev2]
      refine takeWhile_append_stop ?_ (by decide)
      intro x hx
      have hxf : x ∈ ext := List.mem_reverse.mp hx
      simp only [ne_eq, decide_eq_true_eq]
      intro he
      exact hdot (he ▸ hxf)
    have hstem : fileStem ('.' :: ext) = '.' :: ext := by
      simp only [fileStem]
      rw [htw]
      rw [if_neg (by simp only [List.length_reverse, List.length_cons]; omega),
        if_pos (by simp only [List.length_reverse, List.length_cons])]
    have hd1 : ('.' :: ext : Str) ≠ ['.'] := by
      intro h
      simp only [List.cons.injEq, true_and] at h
      exact hnee h
    have hd2 : ('.' :: ext : Str) ≠ ['.', '.'] := by
      intro h
      simp only [List.cons.injEq, true_and] at h
      subst h
      exact hdot (by decide)
    rw [hbase hd1 hd2, hstem]
    simp
  · rintro stem ext rfl hdot hstem_ne hne12
    have hrev2 : (stem ++ '.' :: ext).reverse = ext.reverse ++ '.' :: stem.reverse := by
      simp
    have htw : (stem ++ '.' :: ext).reverse.takeWhile (fun ch => ch ≠ '.') =
        ext.reverse := by
      rw [hrev2]
      refine takeWhile_append_stop ?_ (by decide)
      intro x hx
      have hxf : x ∈ ext := List.mem_reverse.mp hx
      simp only [ne_eq, decide_eq_true_eq]
      intro he
      exact hdot (he ▸ hxf)
    have hslen : 0 < stem.length := List.length_pos.mpr hstem_ne
    have hstem : fileStem (stem ++ '.' :: ext) = stem := by
      simp only [fileStem]
      rw [htw]
      rw [if_neg (by simp only [List.length_reverse, List.length_append,
            List.length_cons]; omega),
        if_neg (by simp only [List.length_reverse, List.length_append,
            List.length_cons]; omega)]
      have hidx : (stem ++ '.' :: ext).length - ext.reverse.length - 1 = stem.length := by
        simp only [List.length_append, List.length_cons, List.length_reverse]
        omega
      rw [hidx]
      exact take_append_len rfl
    have hd1 : stem ++ '.' :: ext ≠ ['.'] := by
      intro h
      have hl := congrArg List.length h
      simp only [List.length_append, List.length_cons, List.length_nil] at hl
      omega
    have hd2 : stem ++ '.' :: ext ≠ ['.', '.'] := by
      intro h
      exact hne12 (by rw [h]; rfl)
    rw [hbase hd1 hd2, hstem]
    simp
  · rintro rfl
    rw [h0]
    simp only [withExtMd]
    have htw2 : ((str "..").reverse ++ '/' :: d.reverse).takeWhile
        (fun ch => ch ≠ '/') = (str "..").reverse :=
      takeWhile_append_stop (by decide) (by decide)
    have hnone : fileNameRev ((d.length + (str "..").length) + 1)
        ((str "..").reverse ++ '/' :: d.reverse) = none := by
      simp only [fileNameRev]
      rw [htw2, if_neg (by decide), if_pos (by decide)]
    rw [hL, hrev, hnone]
  · rintro rfl hfd hdd hdne
    rw [h0]
    simp only [withExtMd]
    have htw1 : ((str ".").reverse ++ '/' :: d.reverse).takeWhile
        (fun ch => ch ≠ '/') = (str ".").reverse :=
      takeWhile_append_stop (by decide) (by decide)
    have hda1 : ((str ".").reverse ++ '/' :: d.reverse).drop
        (str ".").reverse.length = '/' :: d.reverse := drop_append_len rfl
    have htwd : d.reverse.takeWhile (fun ch => ch ≠ '/') = d.reverse := by
      refine takeWhile_all ?_
      intro x hx
      have hxd : x ∈ d := List.mem_reverse.mp hx
      simp only [ne_eq, decide_eq_true_eq]
      intro he
      exact hfd (he ▸ hxd)
    have c1d : ¬(d.reverse = [] ∨ d.reverse = ['.']) := by
      rintro (h | h)
      · exact hdne (by simpa using congrArg List.reverse h)
      · have hd2 : d = ['.'] := by simpa using congrArg List.reverse h
        rw [hd2] at hdd
        exact hdd (by decide)
    have c2d : ¬(d.reverse = ['.', '.']) := by
      intro h
      have hd2 : d = ['.', '.'] := by simpa using congrArg List.reverse h
      rw [hd2] at hdd
      exact hdd (by decide)
    have hstep : fileNameRev ((d.length + (str ".").length) + 1)
        ((str ".").reverse ++ '/' :: d.reverse) = some (d.reverse, []) := by
      simp only [fileNameRev]
      rw [htw1, hda1, if_pos (by decide)]
      show fileNameRev (d.length + (str ".").length) d.reverse =
        some (d.reverse, [])
      have hfuel : d.length + (str ".").length = d.length + 1 := rfl
      rw [hfuel]
      simp only [fileNameRev]
      rw [htwd, List.drop_length, if_neg c1d, if_neg c2d]
    rw [hL, hrev, hstep]
    simp only [List.reverse_reverse, List.reverse_nil, List.nil_append]
    rw [fileStem_no_dot hdd]

/-- Witness for `C10_amended`: a binary named `app.exe` yields `app.md` (the
text after the final dot is replaced). -/
theorem C10_witness :
    cmd_md_path (str "out") ⟨str "app.exe", []⟩ =
      str "out" ++ '/' :: (str "app" ++ str ".md") :=
  (C10_amended (str "out") (str "out") (str "app.exe") ⟨str "app.exe", []⟩
    (by rfl) (by decide) (by decide)).2.2.1 (str "app") (str "exe")
    (by decide) (by decide) (by decide) (by decide)

end HelpGen

